import Mathlib

/-!
Verification development for the `geezy-sudoku` puzzle engine
(`src/app/page.tsx`).

The engine works on 9×9 boards of integers in `{0..9}` (`0` = empty).
We embed a board as a function `Pos → Nat` with `Pos = Fin 9 × Fin 9`
(row, column).  In-place mutation of the shared board in the TypeScript
source is embedded by explicit state passing: the recursive search helpers
return the final state of the board next to their result, and we prove the
restore-on-unwind discipline of the source as a theorem.

The two recursive searches (`solveSudoku`, `countSolutionsHelper`) take the
current cell as a `(row, col)` pair and step to `(row + 1, col)`, rolling
over to `(0, col + 1)` when the row index reaches 9; i.e. they traverse the
single-cell index `cellIndex = 9 * col + row` from 0 to 80 (column-major
order).  We embed them on that single index, with the decoding
`row = cellIndex % 9`, `col = cellIndex / 9`, and carry a fuel argument
that is decremented once per cell step; since every recursive call
increases `cellIndex` by exactly one, fuel `82` is always sufficient from
`cellIndex = 0` (proved below in the correctness theorems, which assume
`82 - cellIndex ≤ fuel`).
-/

namespace Geezy

set_option maxRecDepth 400000

/-- A cell position: (row, column), both in `0..8`. -/
abbrev Pos : Type := Fin 9 × Fin 9

/-- A 9×9 Sudoku board; `0` denotes an empty cell. -/
abbrev Board : Type := Pos → Nat

/-- Write value `v` at position `p` (embeds `board[row][col] = v`). -/
def setCell (b : Board) (p : Pos) (v : Nat) : Board :=
  fun q => if q = p then v else b q

/-- Decode a linear cell index `ℓ = 9 * col + row` into a position. -/
def posOf (ℓ : Nat) (h : ℓ < 81) : Pos :=
  (⟨ℓ % 9, Nat.mod_lt _ (by omega)⟩, ⟨ℓ / 9, by omega⟩)

/-- The cell `(boxRow + i, boxCol + j)` of the 3×3 box containing `(r, c)`,
with `boxRow = r - r % 3` and `boxCol = c - c % 3` as in the source. -/
def boxCell (r c : Fin 9) (i j : Fin 3) : Pos :=
  (⟨r.val / 3 * 3 + i.val, by omega⟩, ⟨c.val / 3 * 3 + j.val, by omega⟩)

/-- Constraint checker `isValid(board, row, col, num)`: `num` appears
nowhere in row `r`, nowhere in column `c`, and nowhere in the 3×3 box
containing `(r, c)` (the scans include the cell `(r, c)` itself, as in the
source loops). -/
def isValid (b : Board) (r c : Fin 9) (num : Nat) : Bool :=
  decide (∀ x : Fin 9, b (r, x) ≠ num) &&
  decide (∀ x : Fin 9, b (x, c) ≠ num) &&
  decide (∀ i : Fin 3, ∀ j : Fin 3, b (boxCell r c i j) ≠ num)

/-- Two positions share a row, a column, or a 3×3 box. -/
def SameUnit (p q : Pos) : Prop :=
  p.1 = q.1 ∨ p.2 = q.2 ∨
    (p.1.val / 3 = q.1.val / 3 ∧ p.2.val / 3 = q.2.val / 3)

instance (p q : Pos) : Decidable (SameUnit p q) := by
  unfold SameUnit; infer_instance

/-- No two distinct filled cells of the same row/column/box hold the same
digit. -/
def NoConflicts (b : Board) : Prop :=
  ∀ p q : Pos, p ≠ q → SameUnit p q → b p ≠ 0 → b q ≠ b p

instance (b : Board) : Decidable (NoConflicts b) := by
  unfold NoConflicts; infer_instance

/-- All cells hold values in `{0..9}` (the spec's Grid data model). -/
def InRange (b : Board) : Prop := ∀ p : Pos, b p ≤ 9

instance (b : Board) : Decidable (InRange b) := by
  unfold InRange; infer_instance

/-- A fully solved board: every cell holds a digit `1..9` and no
row/column/box repeats a digit (equivalently, every row, column and box is
a permutation of 1–9). -/
def SolvedBoard (b : Board) : Prop :=
  (∀ p : Pos, 1 ≤ b p ∧ b p ≤ 9) ∧ NoConflicts b

instance (b : Board) : Decidable (SolvedBoard b) := by
  unfold SolvedBoard; infer_instance

/-!
`countSolutionsHelper(board, row, col, count)` (source lines 361–378),
embedded on the linear cell index with fuel.  The source mutates the shared
board and restores it before returning; we return the final board state
explicitly.  The digit loop `for (num = 1; num <= 9 && count < 2; num++)`
is written out as nine identical steps on a `(count, board)` state: once
`count` reaches 2 the source loop exits, which has the same effect as the
remaining steps doing nothing.  After a child call returns, the shared
board holds `num` at the current cell (the child restored its own entry
state), and the next validity check runs against that board — the steps
below thread the returned board for exactly this reason.
-/

/-- One iteration of the digit loop of `countSolutionsHelper`: at state
`st = (count, board)`, if `count < 2` and `num` is valid at `p`, write
`num` and run the recursive search `recur` on the next cell. -/
def countStep (recur : Board → Nat → Nat × Board) (p : Pos) (num : Nat)
    (st : Nat × Board) : Nat × Board :=
  if st.1 < 2 ∧ isValid st.2 p.1 p.2 num then recur (setCell st.2 p num) st.1
  else st

/-- Fueled embedding of `countSolutionsHelper`; `ℓ` is the linear cell
index `9 * col + row`.  Returns the count and the final board state. -/
def countHelper (b : Board) : Nat → Nat → Nat → Nat × Board
  | 0, _, count => (count, b)
  | fuel + 1, ℓ, count =>
    if h : ℓ < 81 then
      let p := posOf ℓ h
      if b p ≠ 0 then countHelper b fuel (ℓ + 1) count
      else
        let s1 := countStep (fun b2 c2 => countHelper b2 fuel (ℓ + 1) c2) p 1 (count, b)
        let s2 := countStep (fun b2 c2 => countHelper b2 fuel (ℓ + 1) c2) p 2 s1
        let s3 := countStep (fun b2 c2 => countHelper b2 fuel (ℓ + 1) c2) p 3 s2
        let s4 := countStep (fun b2 c2 => countHelper b2 fuel (ℓ + 1) c2) p 4 s3
        let s5 := countStep (fun b2 c2 => countHelper b2 fuel (ℓ + 1) c2) p 5 s4
        let s6 := countStep (fun b2 c2 => countHelper b2 fuel (ℓ + 1) c2) p 6 s5
        let s7 := countStep (fun b2 c2 => countHelper b2 fuel (ℓ + 1) c2) p 7 s6
        let s8 := countStep (fun b2 c2 => countHelper b2 fuel (ℓ + 1) c2) p 8 s7
        let s9 := countStep (fun b2 c2 => countHelper b2 fuel (ℓ + 1) c2) p 9 s8
        (s9.1, setCell s9.2 p 0)
    else (count + 1, b)

/-- `countSolutions(board)` (source lines 356–359): runs the helper from
cell `(0, 0)` with count 0 on a private copy of the board and returns the
count. -/
def countSolutions (b : Board) : Nat :=
  (countHelper b 82 0 0).1

/-- The linear index of a position, inverse to `posOf`. -/
def idxOf (p : Pos) : Nat := 9 * p.2.val + p.1.val

/-- A total assignment of digits to cells; `d : Fin 9` encodes digit
`d + 1`. -/
abbrev Filling : Type := Pos → Fin 9

/-- A filling obeys the Sudoku constraints: distinct cells of a common
row/column/box hold distinct digits. -/
def FillingOk (s : Filling) : Prop :=
  ∀ p q : Pos, p ≠ q → SameUnit p q → s p ≠ s q

instance (s : Filling) : Decidable (FillingOk s) := by
  unfold FillingOk; infer_instance

/-- A filling agrees with every already-filled (non-zero) cell of the
grid. -/
def Completes (s : Filling) (b : Board) : Prop :=
  ∀ p : Pos, b p ≠ 0 → (s p).val + 1 = b p

instance (s : Filling) (b : Board) : Decidable (Completes s b) := by
  unfold Completes; infer_instance

/-- The number of Sudoku completions of a grid. -/
def numCompletions (b : Board) : Nat :=
  (Finset.univ.filter fun s : Filling => Completes s b ∧ FillingOk s).card

/-- The filling read off from a fully filled board. -/
def boardFill (b : Board) : Filling :=
  fun p => ⟨(b p - 1) % 9, Nat.mod_lt _ (by omega)⟩

/-- All cells with linear index below `ℓ` are filled. -/
def FilledBelow (b : Board) (ℓ : Nat) : Prop :=
  ∀ m : Nat, ∀ hm : m < 81, m < ℓ → b (posOf m hm) ≠ 0

/-- The first `k` iterations of the digit loop of `countSolutionsHelper`,
as a recursion on `k`; `countChain recur p 9 st` is the full loop. -/
def countChain (recur : Board → Nat → Nat × Board) (p : Pos) :
    Nat → (Nat × Board) → Nat × Board
  | 0, st => st
  | k + 1, st => countStep recur p (k + 1) (countChain recur p k st)

/-- The contribution of digit `num` at cell `p` to the solution count. -/
def digitContrib (b : Board) (p : Pos) (num : Nat) : Nat :=
  if isValid b p.1 p.2 num then numCompletions (setCell b p num) else 0

/-- Partial sums of digit contributions for digits `1..k`. -/
def digitSum (b : Board) (p : Pos) : Nat → Nat
  | 0 => 0
  | k + 1 => digitSum b p k + digitContrib b p (k + 1)


/-!
`solveSudoku(board, row, col)` (source lines 278–295), embedded like
`countSolutionsHelper` on the linear cell index with fuel.  The digit loop
`for (num = 1; num <= 9; num++)` tries candidates in ascending order and
returns `true` as soon as a recursive call succeeds; a failed recursive
call hands the board back with `num` still written at the current cell,
and the next validity check runs against that board.  When the loop falls
through, the cell is reset to 0 and the call reports failure.
-/

/-- One iteration of the digit loop of `solveSudoku` on a
`(found, board)` state. -/
def tryDigit (recur : Board → Bool × Board) (p : Pos) (num : Nat)
    (st : Bool × Board) : Bool × Board :=
  if st.1 then st
  else if isValid st.2 p.1 p.2 num then recur (setCell st.2 p num)
  else st

/-- The first `k` iterations of the digit loop of `solveSudoku`;
`tryChain recur p 9 st` is the full loop. -/
def tryChain (recur : Board → Bool × Board) (p : Pos) :
    Nat → (Bool × Board) → Bool × Board
  | 0, st => st
  | k + 1, st => tryDigit recur p (k + 1) (tryChain recur p k st)

/-- Fueled embedding of `solveSudoku`; `ℓ` is the linear cell index
`9 * col + row`.  Returns the success flag and the final board state. -/
def solveHelper (b : Board) : Nat → Nat → Bool × Board
  | 0, _ => (false, b)
  | fuel + 1, ℓ =>
    if h : ℓ < 81 then
      let p := posOf ℓ h
      if b p ≠ 0 then solveHelper b fuel (ℓ + 1)
      else
        let s1 := tryDigit (fun b2 => solveHelper b2 fuel (ℓ + 1)) p 1 (false, b)
        let s2 := tryDigit (fun b2 => solveHelper b2 fuel (ℓ + 1)) p 2 s1
        let s3 := tryDigit (fun b2 => solveHelper b2 fuel (ℓ + 1)) p 3 s2
        let s4 := tryDigit (fun b2 => solveHelper b2 fuel (ℓ + 1)) p 4 s3
        let s5 := tryDigit (fun b2 => solveHelper b2 fuel (ℓ + 1)) p 5 s4
        let s6 := tryDigit (fun b2 => solveHelper b2 fuel (ℓ + 1)) p 6 s5
        let s7 := tryDigit (fun b2 => solveHelper b2 fuel (ℓ + 1)) p 7 s6
        let s8 := tryDigit (fun b2 => solveHelper b2 fuel (ℓ + 1)) p 8 s7
        let s9 := tryDigit (fun b2 => solveHelper b2 fuel (ℓ + 1)) p 9 s8
        if s9.1 then s9 else (false, setCell s9.2 p 0)
    else (true, b)

/-- `solveSudoku(board, 0, 0)` as called by `generateSolvedBoard`. -/
def solveSudoku (b : Board) : Bool × Board :=
  solveHelper b 82 0

/-- The all-empty board. -/
def emptyBoard : Board := fun _ => 0

/-- The cell `(3 * r0 + i, 3 * c0 + j)` of the box with corner
`(3 * r0, 3 * c0)`. -/
def boxCornerCell (r0 c0 : Fin 3) (i j : Fin 3) : Pos :=
  (⟨3 * r0.val + i.val, by omega⟩, ⟨3 * c0.val + j.val, by omega⟩)

/-- `fillBox(board, 3*r0, 3*c0)` (source lines 257–267): writes the nine
entries of `nums` into the box in reading order
(`board[row+i][col+j] = nums[3*i+j]`); the shuffled array is modelled by
the arbitrary argument `nums`. -/
def fillBox (b : Board) (r0 c0 : Fin 3) (nums : Fin 9 → Nat) : Board :=
  fun q =>
    if hq : q.1.val / 3 = r0.val ∧ q.2.val / 3 = c0.val then
      nums ⟨3 * (q.1.val % 3) + q.2.val % 3, by omega⟩
    else b q

/-- `fillDiagonalBoxes(board)` (source lines 250–254): fills the three
diagonal boxes with corners `(0,0)`, `(3,3)`, `(6,6)`; the three shuffles
are modelled by `n0`, `n1`, `n2`. -/
def fillDiagonalBoxes (b : Board) (n0 n1 n2 : Fin 9 → Nat) : Board :=
  fillBox (fillBox (fillBox b 0 0 n0) 1 1 n1) 2 2 n2

/-- `generateSolvedBoard()` (source lines 237–247): seed the diagonal
boxes on a fresh empty board, run the backtracking solver from `(0, 0)`,
and return the board (whatever the solver's Boolean verdict was). -/
def generateSolvedBoard (n0 n1 n2 : Fin 9 → Nat) : Board :=
  (solveSudoku (fillDiagonalBoxes emptyBoard n0 n1 n2)).2

/-- A shuffled digit array: nine pairwise distinct entries, each in
1–9 (the outcome of `shuffleArray([1..9])`). -/
def IsPerm9 (nums : Fin 9 → Nat) : Prop :=
  Function.Injective nums ∧ ∀ i : Fin 9, 1 ≤ nums i ∧ nums i ≤ 9

/-- Modelled from the spec (§4.2 step 2): the same backtracking search,
but over an explicit list of cells giving the visit order — skip filled
cells, try digits 1–9 in ascending order at an empty cell, reset the cell
to 0 and report failure when all digits are exhausted, succeed when the
order is exhausted. -/
def specSearch : List Pos → Board → Bool × Board
  | [], b => (true, b)
  | p :: rest, b =>
    if b p ≠ 0 then specSearch rest b
    else
      let s1 := tryDigit (fun b2 => specSearch rest b2) p 1 (false, b)
      let s2 := tryDigit (fun b2 => specSearch rest b2) p 2 s1
      let s3 := tryDigit (fun b2 => specSearch rest b2) p 3 s2
      let s4 := tryDigit (fun b2 => specSearch rest b2) p 4 s3
      let s5 := tryDigit (fun b2 => specSearch rest b2) p 5 s4
      let s6 := tryDigit (fun b2 => specSearch rest b2) p 6 s5
      let s7 := tryDigit (fun b2 => specSearch rest b2) p 7 s6
      let s8 := tryDigit (fun b2 => specSearch rest b2) p 8 s7
      let s9 := tryDigit (fun b2 => specSearch rest b2) p 9 s8
      if s9.1 then s9 else (false, setCell s9.2 p 0)

/-- The column-major visit order actually used by the source's searches:
cell index `ℓ` decodes to row `ℓ % 9`, column `ℓ / 9`. -/
def colMajorOrder : List Pos :=
  (List.finRange 81).map fun ℓ =>
    (⟨ℓ.val % 9, Nat.mod_lt _ (by omega)⟩, ⟨ℓ.val / 9, by have := ℓ.isLt; omega⟩)

/-- The row-major visit order claimed by the spec: cell index `ℓ` decodes
to row `ℓ / 9`, column `ℓ % 9`. -/
def rowMajorOrder : List Pos :=
  (List.finRange 81).map fun ℓ =>
    (⟨ℓ.val / 9, by have := ℓ.isLt; omega⟩, ⟨ℓ.val % 9, Nat.mod_lt _ (by omega)⟩)

/-!
`createPuzzle(solvedBoard, difficulty)` (source lines 322–353).  The
unbounded `while (cellsToRemove > 0)` loop draws random cells; we model
the stream of random draws as an explicit list of positions consumed in
order, and the loop state as (current puzzle, cells still to remove).
Once the removal count reaches 0 the source loop exits, which has the
same effect as ignoring the remaining draws.
-/

/-- `toRemove` from the difficulty table (source lines 326–331), default
case included. -/
def toRemove (d : String) : Nat :=
  if d = "easy" then 40
  else if d = "medium" then 50
  else if d = "hard" then 60
  else 50

/-- One iteration of the carving loop on state `(puzzle, cellsToRemove)`
for a drawn cell `pick`: zero a filled cell, keep the removal only if the
puzzle still has a unique solution, otherwise restore the digit. -/
def carveStep (st : Board × Nat) (pick : Pos) : Board × Nat :=
  if st.2 = 0 then st
  else if st.1 pick ≠ 0 then
    let backup := st.1 pick
    let tent := setCell st.1 pick 0
    if countSolutions tent ≠ 1 then (setCell tent pick backup, st.2)
    else (tent, st.2 - 1)
  else st

/-- `createPuzzle(solvedBoard, difficulty)` driven by the draw list
`picks`; returns the final `(puzzle, cellsToRemove)` state. -/
def createPuzzle (solved : Board) (d : String) (picks : List Pos) :
    Board × Nat :=
  picks.foldl carveStep (solved, toRemove d)

/-- Number of empty cells of a board. -/
def zerosCount (b : Board) : Nat :=
  (Finset.univ.filter fun p : Pos => b p = 0).card

/-!
Play-session model.  The React component's state hooks become the fields
of `GState`; each user-visible event (cell click, key press, number-pad
press, hint, pause, timer tick) becomes a step function on that state,
mirroring the corresponding handler.  The `numberUsage` recount effect
(source lines 76–94) runs after any board change while a game has
started, so it is applied at the end of a board-changing step.  The
per-digit counters are integers, as in the source.  Best-time persistence
(IndexedDB) is modelled as a keyed store updated synchronously.  Toast
notifications are not state; the smart-move signal a step emits is
returned next to the new state.
-/

/-- The keyed best-time store: `(playerName, difficulty) -> time`. -/
abbrev BestStore : Type := String × String → Option Nat

/-- The `numberUsage` counters, keyed by digit. -/
abbrev Usage : Type := Nat → Int

/-- The game state held by the component's hooks (presentation-only flags
such as dark mode are omitted). -/
structure GState where
  board : Board
  solution : Board
  initialBoard : Board
  selectedCell : Option Pos
  difficulty : String
  playerName : String
  gameStarted : Bool
  gameCompleted : Bool
  isPaused : Bool
  timer : Nat
  numberUsage : Usage
  wrongAttempts : Nat
  hintsRemaining : Nat
  lastSmartMove : String
  bestStore : BestStore

/-- Arrow keys for keyboard navigation. -/
inductive ArrowKey where
  | up
  | down
  | left
  | right

/-- User-visible events of a play session. -/
inductive GEvent where
  | cellClick (p : Pos)
  | keyDigit (d : Fin 9)
  | keyErase
  | keyArrow (a : ArrowKey)
  | padPress (n : Fin 10)
  | hintClick
  | pauseClick
  | tick

/-- Number of cells of the board holding value `d`. -/
def countDigit (b : Board) (d : Nat) : Nat :=
  (Finset.univ.filter fun p : Pos => b p = d).card

/-- The `numberUsage` recount effect (source lines 76–94): reset each
digit's counter to 9 and subtract one per occurrence on the board; keys
outside 1–9 keep their previous value from the spread. -/
def recountUsage (prev : Usage) (b : Board) : Usage :=
  fun d => if 1 ≤ d ∧ d ≤ 9 then 9 - (countDigit b d : Int) else prev d

/-- `isBoardComplete` (source lines 504–513): every cell non-zero and
equal to the solution. -/
def isBoardComplete (b sol : Board) : Bool :=
  decide (∀ p : Pos, b p ≠ 0 ∧ b p = sol p)

/-- `saveBestTime` (source lines 516–545): writes the record for
`(playerName, difficulty)` only when no record exists or the new time is
strictly smaller; a falsy (empty) player name skips persistence
entirely. -/
def saveBestTime (store : BestStore) (name diff : String) (t : Nat) :
    BestStore :=
  if name = "" then store
  else
    match store (name, diff) with
    | none => fun k => if k = (name, diff) then some t else store k
    | some old =>
      if t < old then fun k => if k = (name, diff) then some t else store k
      else store

/-- Row `r` has no empty cell. -/
def rowComplete (b : Board) (r : Fin 9) : Bool :=
  decide (∀ x : Fin 9, b (r, x) ≠ 0)

/-- Column `c` has no empty cell. -/
def colComplete (b : Board) (c : Fin 9) : Bool :=
  decide (∀ x : Fin 9, b (x, c) ≠ 0)

/-- The box containing `p` has no empty cell. -/
def boxComplete (b : Board) (p : Pos) : Bool :=
  decide (∀ i : Fin 3, ∀ j : Fin 3, b (boxCell p.1 p.2 i j) ≠ 0)

/-- The `moveType` label chain of `checkForSmartMove` (source lines
480–495). -/
def moveLabelOf (rowC colC boxC : Bool) : String :=
  if rowC && colC && boxC then "row, column and box"
  else if rowC && colC then "row and column"
  else if rowC && boxC then "row and box"
  else if colC && boxC then "column and box"
  else if rowC then "row"
  else if colC then "column"
  else if boxC then "box"
  else ""

/-- The label of the shapes completed by the digit just placed at `p`. -/
def moveLabel (b : Board) (p : Pos) : String :=
  moveLabelOf (rowComplete b p.1) (colComplete b p.2) (boxComplete b p)

/-- `checkForSmartMove(board, row, col, num)` (source lines 460–501):
returns the emitted signal (if any) and the new `lastSmartMove`. -/
def checkForSmartMove (b : Board) (p : Pos) (num : Nat) (last : String) :
    Option String × String :=
  if num = 0 then (none, last)
  else
    let label := moveLabel b p
    if label ≠ "" ∧ label ≠ last then (some label, label) else (none, last)

/-- `handleNumberInput(num)` (source lines 409–457), with the usage
recount effect applied after a board change when the game has started.
Returns the new state and the emitted smart-move signal. -/
def handleNumberInput (st : GState) (num : Nat) : GState × Option String :=
  match st.selectedCell with
  | none => (st, none)
  | some p =>
    if st.gameCompleted ∨ st.isPaused then (st, none)
    else if num ≠ 0 ∧ num ≠ st.solution p then
      if 3 ≤ st.wrongAttempts + 1 then
        ({ st with wrongAttempts := st.wrongAttempts + 1,
                   gameCompleted := true }, none)
      else ({ st with wrongAttempts := st.wrongAttempts + 1 }, none)
    else if num ≠ 0 ∧ st.numberUsage num ≤ 0 then (st, none)
    else
      let prev := st.board p
      let b2 := setCell st.board p num
      let u1 : Usage := fun d =>
        st.numberUsage d + (if d = prev ∧ 0 < prev then 1 else 0)
          - (if d = num ∧ 0 < num then 1 else 0)
      let sm := checkForSmartMove b2 p num st.lastSmartMove
      let complete := isBoardComplete b2 st.solution
      ({ st with
          board := b2
          numberUsage := if st.gameStarted then recountUsage u1 b2 else u1
          lastSmartMove := sm.2
          gameCompleted := st.gameCompleted || complete
          bestStore :=
            if complete then
              saveBestTime st.bestStore st.playerName st.difficulty st.timer
            else st.bestStore },
        sm.1)

/-- `handleCellClick(row, col)` (source lines 402–406): select the cell
only if it is empty in the initial board and the game is neither
completed nor paused (note: `gameStarted` is not checked). -/
def handleCellClick (st : GState) (p : Pos) : GState :=
  if st.initialBoard p = 0 ∧ ¬st.gameCompleted ∧ ¬st.isPaused then
    { st with selectedCell := some p }
  else st

/-- Arrow-key navigation (source lines 110–126): move within bounds,
with no check that the target cell is editable. -/
def moveSelection (p : Pos) (a : ArrowKey) : Pos :=
  match a with
  | .up => if h : 0 < p.1.val then (⟨p.1.val - 1, by omega⟩, p.2) else p
  | .down => if h : p.1.val < 8 then (⟨p.1.val + 1, by omega⟩, p.2) else p
  | .left => if h : 0 < p.2.val then (p.1, ⟨p.2.val - 1, by omega⟩) else p
  | .right => if h : p.2.val < 8 then (p.1, ⟨p.2.val + 1, by omega⟩) else p

/-- `provideHint` (source lines 592–645): only consumes a hint allowance
for an empty selected cell; the explanation is presentation. -/
def provideHint (st : GState) : GState :=
  match st.selectedCell with
  | none => st
  | some p =>
    if st.hintsRemaining ≤ 0 ∨ st.gameCompleted ∨ st.isPaused then st
    else if st.board p ≠ 0 then st
    else { st with hintsRemaining := st.hintsRemaining - 1 }

/-- `togglePause` (source lines 648–652). -/
def togglePause (st : GState) : GState :=
  if ¬st.gameStarted ∨ st.gameCompleted then st
  else { st with isPaused := !st.isPaused }

/-- The timer effect (source lines 226–234): one tick advances the timer
only while a started game is neither completed nor paused. -/
def tickTimer (st : GState) : GState :=
  if st.gameStarted ∧ ¬st.gameCompleted ∧ ¬st.isPaused then
    { st with timer := st.timer + 1 }
  else st

/-- One play-session event, returning the new state and the emitted
smart-move signal.  Keyboard events pass through the `handleKeyDown`
guard (source line 99: started, not completed, not paused, and for each
branch a selected cell); the number pad calls `handleNumberInput`
directly (source line 854). -/
def stepE (st : GState) (e : GEvent) : GState × Option String :=
  match e with
  | .cellClick p => (handleCellClick st p, none)
  | .keyDigit d =>
    if ¬st.gameStarted ∨ st.gameCompleted ∨ st.isPaused then (st, none)
    else
      match st.selectedCell with
      | some _ => handleNumberInput st (d.val + 1)
      | none => (st, none)
  | .keyErase =>
    if ¬st.gameStarted ∨ st.gameCompleted ∨ st.isPaused then (st, none)
    else
      match st.selectedCell with
      | some _ => handleNumberInput st 0
      | none => (st, none)
  | .keyArrow a =>
    if ¬st.gameStarted ∨ st.gameCompleted ∨ st.isPaused then (st, none)
    else
      match st.selectedCell with
      | some p => ({ st with selectedCell := some (moveSelection p a) }, none)
      | none => (st, none)
  | .padPress n => handleNumberInput st n.val
  | .hintClick => (provideHint st, none)
  | .pauseClick => (togglePause st, none)
  | .tick => (tickTimer st, none)

/-- One play-session event, state part. -/
def step (st : GState) (e : GEvent) : GState :=
  (stepE st e).1

/-- A sequence of play-session events. -/
def stepList (st : GState) (evs : List GEvent) : GState :=
  evs.foldl step st

/-- `generateSudoku()` (source lines 381–399) on a prior state, given the
generated solved board and carved puzzle: reset the session flags and
counters, install the boards, and let the usage effect recount from the
new board.  `selectedCell` is not reset by the source. -/
def newGameState (st : GState) (solved puzzle : Board) : GState :=
  { st with
      gameStarted := true
      gameCompleted := false
      timer := 0
      wrongAttempts := 0
      hintsRemaining := 3
      isPaused := false
      lastSmartMove := ""
      solution := solved
      board := puzzle
      initialBoard := puzzle
      numberUsage := recountUsage st.numberUsage puzzle }

/-- The initial hook values (source lines 37–56 and the mount effect at
lines 67–73, which sets every digit's usage to 9). -/
def initState : GState :=
  { board := emptyBoard
    solution := emptyBoard
    initialBoard := emptyBoard
    selectedCell := none
    difficulty := "medium"
    playerName := ""
    gameStarted := false
    gameCompleted := false
    isPaused := false
    timer := 0
    numberUsage := fun _ => 9
    wrongAttempts := 0
    hintsRemaining := 3
    lastSmartMove := ""
    bestStore := fun _ => none }

/-- The digit-budget invariant: for every digit `1..9`,
`numberUsage[d] + (count of d on the board) = 9`. -/
def UsageInv (st : GState) : Prop :=
  ∀ d : Fin 9,
    st.numberUsage (d.val + 1) + (countDigit st.board (d.val + 1) : Int) = 9

instance (st : GState) : Decidable (UsageInv st) := by
  unfold UsageInv; infer_instance

/-! Concrete boards and states used as test inputs. -/

/-- A board written as a list of 9 rows of 9 entries. -/
def boardOfRows (rows : List (List Nat)) : Board :=
  fun p => (rows.getD p.1.val []).getD p.2.val 0

/-- A fully solved reference grid:
`cell (r, c) = (r * 3 + r / 3 + c) % 9 + 1`. -/
def classicGrid : Board :=
  fun p => (p.1.val * 3 + p.1.val / 3 + p.2.val) % 9 + 1

/-- The board with every cell set to 1. -/
def onesBoard : Board := fun _ => 1

/-- A partial grid whose ten empty cells form a bivalue cycle of the
digits 1 and 3, so it has exactly two completions; the backtracking
search reaches a different one of the two depending on the visit
order. -/
def orderCexBoard : Board :=
  boardOfRows
    [[2, 0, 5, 4, 0, 8, 6, 7, 9],
     [0, 6, 9, 2, 7, 0, 8, 4, 5],
     [4, 7, 8, 6, 9, 5, 3, 2, 1],
     [8, 2, 4, 9, 6, 7, 1, 5, 3],
     [5, 0, 0, 8, 2, 4, 9, 6, 7],
     [7, 9, 6, 5, 0, 0, 4, 8, 2],
     [9, 8, 7, 3, 4, 2, 5, 1, 6],
     [0, 4, 0, 7, 5, 6, 2, 9, 8],
     [6, 5, 2, 1, 8, 9, 7, 3, 4]]

/-- `classicGrid` with the cell `(1, 0)` blanked: a one-hole puzzle whose
cell `(0, 0)` is a given. -/
def demoPuzzle : Board :=
  setCell classicGrid ((1 : Fin 9), (0 : Fin 9)) 0

/-- A fresh component state with a created profile. -/
def preState : GState :=
  { initState with playerName := "geezy" }

/-- A play state: new game on `classicGrid` carved to `demoPuzzle`. -/
def playState : GState :=
  newGameState preState classicGrid demoPuzzle

/-- The play state with the lone empty cell `(1, 0)` selected. -/
def selState : GState :=
  { playState with selectedCell := some ((1 : Fin 9), (0 : Fin 9)) }

/-! Basic lemmas about cells, positions and the constraint checker. -/

@[simp]
theorem setCell_same (b : Board) (p : Pos) (v : Nat) : setCell b p v p = v := by
  simp [setCell]

theorem setCell_ne (b : Board) (p q : Pos) (v : Nat) (h : q ≠ p) :
    setCell b p v q = b q := by
  simp [setCell, h]

theorem setCell_setCell (b : Board) (p : Pos) (v w : Nat) :
    setCell (setCell b p v) p w = setCell b p w := by
  funext q
  by_cases h : q = p <;> simp [setCell, h]

theorem setCell_self (b : Board) (p : Pos) (v : Nat) (h : b p = v) :
    setCell b p v = b := by
  funext q
  by_cases hq : q = p <;> simp [setCell, hq, h.symm]

theorem idxOf_lt (p : Pos) : idxOf p < 81 := by
  obtain ⟨⟨r, hr⟩, ⟨c, hc⟩⟩ := p
  simp only [idxOf]
  omega

theorem posOf_idxOf (p : Pos) (h : idxOf p < 81) : posOf (idxOf p) h = p := by
  obtain ⟨⟨r, hr⟩, ⟨c, hc⟩⟩ := p
  simp only [posOf, idxOf, Prod.mk.injEq]
  constructor <;> apply Fin.ext <;> simp <;> omega

theorem posOf_inj (m ℓ : Nat) (hm : m < 81) (hl : ℓ < 81)
    (h : posOf m hm = posOf ℓ hl) : m = ℓ := by
  simp only [posOf, Prod.mk.injEq, Fin.mk.injEq] at h
  omega

/-- Membership in the 3×3 box scanned by `isValid` coincides with the
box component of `SameUnit`. -/
theorem boxCell_mem_iff (r c : Fin 9) (q : Pos) :
    (∃ i j : Fin 3, boxCell r c i j = q) ↔
      (r.val / 3 = q.1.val / 3 ∧ c.val / 3 = q.2.val / 3) := by
  constructor
  · rintro ⟨i, j, rfl⟩
    simp only [boxCell]
    omega
  · rintro ⟨h1, h2⟩
    refine ⟨⟨q.1.val % 3, by omega⟩, ⟨q.2.val % 3, by omega⟩, ?_⟩
    obtain ⟨⟨qr, hqr⟩, ⟨qc, hqc⟩⟩ := q
    simp only [boxCell, Prod.mk.injEq]
    constructor <;> apply Fin.ext <;> simp at h1 h2 ⊢ <;> omega

/-- `isValid` succeeds exactly when no cell sharing a row, column or box
with `(r, c)` (including `(r, c)` itself) already holds `num`. -/
theorem isValid_iff (b : Board) (r c : Fin 9) (num : Nat) :
    isValid b r c num = true ↔ ∀ q : Pos, SameUnit (r, c) q → b q ≠ num := by
  simp only [isValid, Bool.and_eq_true, decide_eq_true_eq]
  constructor
  · rintro ⟨⟨hrow, hcol⟩, hbox⟩ q hq
    rcases hq with h | h | h
    · have : q = (r, q.2) := by
        obtain ⟨q1, q2⟩ := q; simp only at h; simp [← h]
      rw [this]; exact hrow q.2
    · have : q = (q.1, c) := by
        obtain ⟨q1, q2⟩ := q; simp only at h; simp [← h]
      rw [this]; exact hcol q.1
    · obtain ⟨i, j, hij⟩ := (boxCell_mem_iff r c q).mpr h
      rw [← hij]; exact hbox i j
  · intro h
    refine ⟨⟨fun x => h (r, x) (Or.inl rfl), fun x => h (x, c) (Or.inr (Or.inl rfl))⟩,
      fun i j => h (boxCell r c i j) ?_⟩
    refine Or.inr (Or.inr ?_)
    simp only [boxCell]
    omega

/-- `isValid` fails exactly when some cell in the same row, column or box
already holds `num`. -/
theorem isValid_eq_false_iff (b : Board) (r c : Fin 9) (num : Nat) :
    isValid b r c num = false ↔ ∃ q : Pos, SameUnit (r, c) q ∧ b q = num := by
  rw [← Bool.not_eq_true, isValid_iff]
  push_neg
  rfl

/-- Writing a valid nonzero digit into an empty cell keeps the board
conflict-free. -/
theorem noConflicts_setCell (b : Board) (p : Pos) (num : Nat)
    (hconf : NoConflicts b)
    (hv : isValid b p.1 p.2 num = true) :
    NoConflicts (setCell b p num) := by
  rw [isValid_iff] at hv
  intro x y hxy hunit hx0
  by_cases hxp : x = p
  · subst hxp
    have hyp : y ≠ x := fun h => hxy h.symm
    rw [setCell_ne _ _ _ _ hyp, setCell_same]
    intro hyx
    exact hv y (by simpa using hunit) hyx
  · rw [setCell_ne _ _ _ _ hxp] at hx0 ⊢
    by_cases hyp : y = p
    · subst hyp
      rw [setCell_same]
      intro hyx
      have hunit2 : SameUnit (y.1, y.2) x := by
        rcases hunit with h | h | h
        · exact Or.inl h.symm
        · exact Or.inr (Or.inl h.symm)
        · exact Or.inr (Or.inr ⟨h.1.symm, h.2.symm⟩)
      exact hv x hunit2 hyx.symm
    · rw [setCell_ne _ _ _ _ hyp]
      exact hconf x y hxy hunit hx0

/-!
The mathematical notion of a Sudoku completion of a grid, used to state
what `countSolutions` computes.  A filling assigns one of the nine digits
to every cell (`Fin 9`, where `d` encodes the digit `d + 1`).
-/

theorem boardFill_val (b : Board) (p : Pos) (h1 : 1 ≤ b p) (h9 : b p ≤ 9) :
    (boardFill b p).val + 1 = b p := by
  simp only [boardFill]
  omega

/-- A fully filled, in-range, conflict-free board has itself as its one
and only completion. -/
theorem completions_of_full (b : Board) (hfull : ∀ p : Pos, b p ≠ 0)
    (hrange : InRange b) (hconf : NoConflicts b) :
    (Finset.univ.filter fun s : Filling => Completes s b ∧ FillingOk s) =
      {boardFill b} := by
  ext s
  simp only [Finset.mem_filter, Finset.mem_univ, true_and, Finset.mem_singleton]
  constructor
  · rintro ⟨hext, -⟩
    funext p
    have h := hext p (hfull p)
    have h2 := boardFill_val b p (by have := hfull p; omega) (hrange p)
    apply Fin.ext
    omega
  · rintro rfl
    refine ⟨fun p hp => boardFill_val b p (by have := hfull p; omega) (hrange p), ?_⟩
    intro p q hpq hunit
    have hbp := hfull p
    have hv := hconf p q hpq hunit hbp
    have h1 := boardFill_val b p (by omega) (hrange p)
    have h2 := boardFill_val b q (by have := hfull q; omega) (hrange q)
    intro heq
    apply hv
    omega

theorem numCompletions_of_full (b : Board) (hfull : ∀ p : Pos, b p ≠ 0)
    (hrange : InRange b) (hconf : NoConflicts b) : numCompletions b = 1 := by
  rw [numCompletions, completions_of_full b hfull hrange hconf,
    Finset.card_singleton]

theorem filledBelow_zero (b : Board) : FilledBelow b 0 := by
  intro m hm h
  omega

theorem filledBelow_all (b : Board) (h : FilledBelow b 81) (p : Pos) :
    b p ≠ 0 := by
  have := h (idxOf p) (idxOf_lt p) (idxOf_lt p)
  rwa [posOf_idxOf] at this

/-- Unfolding equation for `countHelper` at positive fuel, phrased through
`countChain`. -/
theorem countHelper_succ (b : Board) (fuel ℓ count : Nat) :
    countHelper b (fuel + 1) ℓ count =
      if h : ℓ < 81 then
        if b (posOf ℓ h) ≠ 0 then countHelper b fuel (ℓ + 1) count
        else
          let s9 := countChain (fun b2 c2 => countHelper b2 fuel (ℓ + 1) c2)
            (posOf ℓ h) 9 (count, b)
          (s9.1, setCell s9.2 (posOf ℓ h) 0)
      else (count + 1, b) := by
  simp only [countHelper, countChain]

/-- Branch equation: at a filled cell the helper just moves on. -/
theorem countHelper_step_filled (b : Board) (fuel ℓ count : Nat)
    (h : ℓ < 81) (hbp : b (posOf ℓ h) ≠ 0) :
    countHelper b (fuel + 1) ℓ count = countHelper b fuel (ℓ + 1) count := by
  rw [countHelper_succ, dif_pos h, if_pos hbp]

/-- Branch equation: at an empty cell the helper runs the digit loop and
then resets the cell to 0. -/
theorem countHelper_step_empty (b : Board) (fuel ℓ count : Nat)
    (h : ℓ < 81) (hbp : b (posOf ℓ h) = 0) :
    countHelper b (fuel + 1) ℓ count =
      ((countChain (fun b2 c2 => countHelper b2 fuel (ℓ + 1) c2)
          (posOf ℓ h) 9 (count, b)).1,
        setCell (countChain (fun b2 c2 => countHelper b2 fuel (ℓ + 1) c2)
          (posOf ℓ h) 9 (count, b)).2 (posOf ℓ h) 0) := by
  rw [countHelper_succ, dif_pos h, if_neg (by simp [hbp])]

/-- Branch equation: past the last cell the helper reports one more
solution found. -/
theorem countHelper_step_end (b : Board) (fuel ℓ count : Nat)
    (h : ¬ ℓ < 81) :
    countHelper b (fuel + 1) ℓ count = (count + 1, b) := by
  rw [countHelper_succ, dif_neg h]

/-- Restore discipline of the digit loop: iterations never change cells
other than `p`. -/
theorem countChain_offcell (recur : Board → Nat → Nat × Board) (p : Pos)
    (hrec : ∀ b2 c2, (recur b2 c2).2 = b2) (k : Nat) (st : Nat × Board)
    (q : Pos) (hq : q ≠ p) :
    (countChain recur p k st).2 q = st.2 q := by
  induction k with
  | zero => rfl
  | succ k ih =>
    simp only [countChain, countStep]
    by_cases hc : (countChain recur p k st).1 < 2 ∧
        isValid (countChain recur p k st).2 p.1 p.2 (k + 1)
    · simp only [if_pos hc, hrec, setCell_ne _ _ _ _ hq, ih]
    · simp only [if_neg hc, ih]

/-- Restore discipline of `countSolutionsHelper` (source line 376): the
search hands the board back exactly as it received it. -/
theorem countHelper_restores (fuel : Nat) :
    ∀ b ℓ count, (countHelper b fuel ℓ count).2 = b := by
  induction fuel with
  | zero => intro b ℓ count; rfl
  | succ fuel ih =>
    intro b ℓ count
    rw [countHelper_succ]
    by_cases h : ℓ < 81
    · rw [dif_pos h]
      by_cases hb : b (posOf ℓ h) ≠ 0
      · rw [if_pos hb, ih]
      · rw [if_neg hb]
        push_neg at hb
        funext q
        by_cases hq : q = posOf ℓ h
        · subst hq; simp [hb]
        · simp only []
          rw [setCell_ne _ _ _ _ hq]
          exact countChain_offcell _ _ (fun b2 c2 => ih b2 (ℓ + 1) c2) 9 _ q hq
    · rw [dif_neg h]

/-- Filling a cell does not change the verdict of `isValid` at that same
cell for a different nonzero candidate (the source re-checks validity
against the board still holding the previously tried digit). -/
theorem isValid_setCell_cell (b : Board) (p : Pos) (j num : Nat)
    (hb : b p = 0) (hj : j ≠ num) (hnum : num ≠ 0) :
    isValid (setCell b p j) p.1 p.2 num = isValid b p.1 p.2 num := by
  cases hv : isValid b p.1 p.2 num with
  | true =>
    rw [isValid_iff] at hv ⊢
    intro q hq
    by_cases hqp : q = p
    · subst hqp; simpa using hj
    · rw [setCell_ne _ _ _ _ hqp]; exact hv q hq
  | false =>
    rw [isValid_eq_false_iff] at hv ⊢
    obtain ⟨q, hq, hbq⟩ := hv
    have hqp : q ≠ p := by intro h; subst h; rw [hb] at hbq; exact hnum hbq.symm
    exact ⟨q, hq, by rwa [setCell_ne _ _ _ _ hqp]⟩

/-- Agreement of a filling with `setCell b p num` splits into agreement
with `b` plus the digit constraint at `p`, when `p` was empty. -/
theorem completes_setCell_iff (s : Filling) (b : Board) (p : Pos) (num : Nat)
    (hb : b p = 0) (hnum : num ≠ 0) :
    Completes s (setCell b p num) ↔ Completes s b ∧ (s p).val + 1 = num := by
  constructor
  · intro h
    refine ⟨fun q hq => ?_, ?_⟩
    · have hqp : q ≠ p := by intro he; subst he; exact hq hb
      have := h q (by rwa [setCell_ne _ _ _ _ hqp])
      rwa [setCell_ne _ _ _ _ hqp] at this
    · have := h p (by simpa using hnum)
      rwa [setCell_same] at this
  · rintro ⟨h, hp⟩ q hq
    by_cases hqp : q = p
    · subst hqp; rwa [setCell_same]
    · rw [setCell_ne _ _ _ _ hqp] at hq ⊢; exact h q hq

theorem digitSum_le (b : Board) (p : Pos) (k : Nat) :
    digitSum b p k ≤ digitSum b p (k + 1) := by
  simp only [digitSum]
  omega

/-- If a candidate digit is invalid at an empty cell, no completion places
it there. -/
theorem no_completion_of_invalid (b : Board) (p : Pos) (num : Nat)
    (hb : b p = 0) (hv : isValid b p.1 p.2 num = false) (s : Filling)
    (hc : Completes s b) (hok : FillingOk s) : (s p).val + 1 ≠ num := by
  intro heq
  rw [isValid_eq_false_iff] at hv
  obtain ⟨q, hq, hbq⟩ := hv
  have hqp : q ≠ p := by
    intro h; subst h; rw [hb] at hbq; omega
  have hsq := hc q (by omega)
  have : s q = s p := by apply Fin.ext; omega
  have hpq : (p.1, p.2) = p := rfl
  rw [hpq] at hq
  exact hok q p hqp (by
    rcases hq with h | h | h
    · exact Or.inl h.symm
    · exact Or.inr (Or.inl h.symm)
    · exact Or.inr (Or.inr ⟨h.1.symm, h.2.symm⟩)) (this ▸ rfl)

/-- The completions that put digit `v + 1` at the empty cell `p` are the
completions of the grid with that digit written in. -/
theorem completions_fiber_valid (b : Board) (p : Pos) (hb : b p = 0)
    (v : Fin 9) (hv : isValid b p.1 p.2 (v.val + 1) = true) :
    (Finset.univ.filter fun s : Filling =>
        (Completes s b ∧ FillingOk s) ∧ s p = v) =
      Finset.univ.filter fun s : Filling =>
        Completes s (setCell b p (v.val + 1)) ∧ FillingOk s := by
  apply Finset.filter_congr
  intro s _
  rw [completes_setCell_iff s b p (v.val + 1) hb (by omega)]
  constructor
  · rintro ⟨⟨hc, hok⟩, rfl⟩
    exact ⟨⟨hc, by omega⟩, hok⟩
  · rintro ⟨⟨hc, hval⟩, hok⟩
    exact ⟨⟨hc, hok⟩, by apply Fin.ext; omega⟩

/-- No completion puts an invalid digit at an empty cell. -/
theorem completions_fiber_invalid (b : Board) (p : Pos) (hb : b p = 0)
    (v : Fin 9) (hv : isValid b p.1 p.2 (v.val + 1) = false) :
    (Finset.univ.filter fun s : Filling =>
        (Completes s b ∧ FillingOk s) ∧ s p = v) = ∅ := by
  ext s
  simp only [Finset.mem_filter, Finset.mem_univ, true_and,
    Finset.not_mem_empty, iff_false, not_and]
  rintro ⟨hc, hok⟩ rfl
  exact no_completion_of_invalid b p ((s p).val + 1) hb hv s hc hok rfl

theorem completions_fiber (b : Board) (p : Pos) (hb : b p = 0) (v : Fin 9) :
    ((Finset.univ.filter fun s : Filling =>
      Completes s b ∧ FillingOk s).filter fun s => s p = v).card =
      digitContrib b p (v.val + 1) := by
  rw [Finset.filter_filter, digitContrib]
  by_cases hv : isValid b p.1 p.2 (v.val + 1) = true
  · rw [if_pos hv, numCompletions, completions_fiber_valid b p hb v hv]
  · rw [if_neg hv, completions_fiber_invalid b p hb v
      (Bool.not_eq_true _ ▸ hv), Finset.card_empty]

theorem digitSum_eq_range (b : Board) (p : Pos) (k : Nat) :
    digitSum b p k = ∑ m ∈ Finset.range k, digitContrib b p (m + 1) := by
  induction k with
  | zero => rfl
  | succ k ih => rw [Finset.sum_range_succ, ← ih]; rfl

/-- Completions of a grid with `p` empty, counted by the digit a filling
puts at `p`. -/
theorem numCompletions_partition (b : Board) (p : Pos) (hb : b p = 0) :
    numCompletions b = digitSum b p 9 := by
  rw [numCompletions,
    Finset.card_eq_sum_card_fiberwise (fun s _ => Finset.mem_univ (s p)),
    digitSum_eq_range, ← Fin.sum_univ_eq_sum_range fun m => digitContrib b p (m + 1)]
  exact Finset.sum_congr rfl fun v _ => completions_fiber b p hb v

/-- Invariant of the digit loop of `countSolutionsHelper`: after the first
`k` iterations the count equals `min (c + digitSum k) 2` and the board
differs from the entry board at most at `p`, holding one of the digits
tried so far. -/
theorem countChain_spec (fuel ℓ : Nat) (hl : ℓ < 81) (b : Board) (c : Nat)
    (p : Pos) (hp : posOf ℓ hl = p) (hb : b p = 0)
    (hfill : FilledBelow b ℓ) (hrange : InRange b) (hconf : NoConflicts b)
    (hc : c ≤ 1)
    (hrec1 : ∀ b2 c2, FilledBelow b2 (ℓ + 1) → InRange b2 → NoConflicts b2 →
      c2 ≤ 1 →
      (countHelper b2 fuel (ℓ + 1) c2).1 = min (c2 + numCompletions b2) 2) :
    ∀ k, k ≤ 9 →
      (countChain (fun b2 c2 => countHelper b2 fuel (ℓ + 1) c2) p k (c, b)).1 =
        min (c + digitSum b p k) 2 ∧
      ((countChain (fun b2 c2 => countHelper b2 fuel (ℓ + 1) c2) p k (c, b)).2 = b ∨
        ∃ num, 1 ≤ num ∧ num ≤ k ∧
          (countChain (fun b2 c2 => countHelper b2 fuel (ℓ + 1) c2) p k (c, b)).2 =
            setCell b p num) := by
  intro k
  induction k with
  | zero =>
    intro _
    refine ⟨?_, Or.inl rfl⟩
    simp only [countChain, digitSum]
    omega
  | succ k ih =>
    intro hk9
    obtain ⟨h1, h2⟩ := ih (by omega)
    set st := countChain (fun b2 c2 => countHelper b2 fuel (ℓ + 1) c2) p k (c, b) with hst
    have hstep : countChain (fun b2 c2 => countHelper b2 fuel (ℓ + 1) c2) p (k + 1) (c, b) =
        countStep (fun b2 c2 => countHelper b2 fuel (ℓ + 1) c2) p (k + 1) st := rfl
    rw [hstep]
    have hvalstable : isValid st.2 p.1 p.2 (k + 1) = isValid b p.1 p.2 (k + 1) := by
      rcases h2 with h | ⟨num, hn1, hnk, hsb⟩
      · rw [h]
      · rw [hsb]
        exact isValid_setCell_cell b p num (k + 1) hb (by omega) (by omega)
    rw [countStep, hvalstable]
    by_cases hcase : st.1 < 2 ∧ isValid b p.1 p.2 (k + 1) = true
    · obtain ⟨hlt, hvb⟩ := hcase
      rw [if_pos ⟨hlt, hvb⟩]
      have hsetc : setCell st.2 p (k + 1) = setCell b p (k + 1) := by
        rcases h2 with h | ⟨num, hn1, hnk, hsb⟩
        · rw [h]
        · rw [hsb, setCell_setCell]
      rw [hsetc]
      have hfill2 : FilledBelow (setCell b p (k + 1)) (ℓ + 1) := by
        intro m hm hml
        rcases Nat.lt_or_ge m ℓ with h | h
        · have hne : posOf m hm ≠ p := by
            rw [← hp]
            intro hcontra
            exact absurd (posOf_inj m ℓ hm hl hcontra) (by omega)
          rw [setCell_ne _ _ _ _ hne]
          exact hfill m hm h
        · have hmeq : m = ℓ := by omega
          subst hmeq
          have hpm : posOf m hm = p := hp
          rw [hpm, setCell_same]
          omega
      have hrange2 : InRange (setCell b p (k + 1)) := by
        intro q
        by_cases hq : q = p
        · subst hq; rw [setCell_same]; omega
        · rw [setCell_ne _ _ _ _ hq]; exact hrange q
      have hconf2 : NoConflicts (setCell b p (k + 1)) :=
        noConflicts_setCell b p (k + 1) hconf hvb
      have hval := hrec1 (setCell b p (k + 1)) st.1 hfill2 hrange2 hconf2 (by omega)
      have hst1 : st.1 = c + digitSum b p k := by
        rw [h1] at hlt ⊢
        omega
      constructor
      · rw [hval]
        have hcontrib : digitContrib b p (k + 1) =
            numCompletions (setCell b p (k + 1)) := by
          rw [digitContrib, if_pos hvb]
        simp only [digitSum, hcontrib]
        omega
      · right
        exact ⟨k + 1, by omega, le_rfl, countHelper_restores fuel _ _ _⟩
    · rw [if_neg hcase]
      refine ⟨?_, ?_⟩
      · rcases Nat.lt_or_ge st.1 2 with hlt | hge
        · have hvb : isValid b p.1 p.2 (k + 1) = false := by
            rcases Bool.eq_false_or_eq_true (isValid b p.1 p.2 (k + 1)) with h | h
            · exact absurd ⟨hlt, h⟩ hcase
            · exact h
          have hcontrib : digitContrib b p (k + 1) = 0 := by
            rw [digitContrib, if_neg]
            simp [hvb]
          rw [h1]
          simp only [digitSum, hcontrib]
          omega
        · have hds := digitSum_le b p k
          simp only [digitSum] at hds ⊢
          rw [h1] at hge ⊢
          omega
      · rcases h2 with h | ⟨num, hn1, hnk, hsb⟩
        · exact Or.inl h
        · exact Or.inr ⟨num, hn1, by omega, hsb⟩

/-- Full correctness of the fueled `countSolutionsHelper`: started at cell
index `ℓ` with running count `c ≤ 1` on a conflict-free in-range board
whose cells before `ℓ` are filled, it returns
`min (c + numCompletions b) 2`. -/
theorem countHelper_count (fuel : Nat) :
    ∀ b ℓ c, 82 - ℓ ≤ fuel → ℓ ≤ 81 → FilledBelow b ℓ → InRange b →
      NoConflicts b → c ≤ 1 →
      (countHelper b fuel ℓ c).1 = min (c + numCompletions b) 2 := by
  induction fuel with
  | zero =>
    intro b ℓ c hf hl hfill hrange hconf hc
    exact absurd hf (by omega)
  | succ fuel ih =>
    intro b ℓ c hf hl hfill hrange hconf hc
    by_cases h81 : ℓ < 81
    · by_cases hbp : b (posOf ℓ h81) ≠ 0
      · rw [countHelper_step_filled b fuel ℓ c h81 hbp]
        apply ih b (ℓ + 1) c (by omega) (by omega) ?_ hrange hconf hc
        intro m hm hml
        rcases Nat.lt_or_ge m ℓ with h | h
        · exact hfill m hm h
        · have hmeq : m = ℓ := by omega
          subst hmeq
          exact hbp
      · push_neg at hbp
        have hfst : (countHelper b (fuel + 1) ℓ c).1 =
            (countChain (fun b2 c2 => countHelper b2 fuel (ℓ + 1) c2)
              (posOf ℓ h81) 9 (c, b)).1 := by
          rw [countHelper_step_empty b fuel ℓ c h81 hbp]
        have hrec1 : ∀ b2 c2, FilledBelow b2 (ℓ + 1) → InRange b2 →
            NoConflicts b2 → c2 ≤ 1 →
            (countHelper b2 fuel (ℓ + 1) c2).1 = min (c2 + numCompletions b2) 2 :=
          fun b2 c2 hA hB hC hD => ih b2 (ℓ + 1) c2 (by omega) (by omega) hA hB hC hD
        obtain ⟨h1, -⟩ := countChain_spec fuel ℓ h81 b c (posOf ℓ h81) rfl hbp
          hfill hrange hconf hc hrec1 9 le_rfl
        rw [hfst, h1, numCompletions_partition b (posOf ℓ h81) hbp]
    · rw [countHelper_step_end b fuel ℓ c h81]
      have hl81 : ℓ = 81 := by omega
      subst hl81
      rw [numCompletions_of_full b (filledBelow_all b hfill) hrange hconf]
      show c + 1 = min (c + 1) 2
      omega

/-- Correctness of `countSolutions` on the spec's Grid data model (cells
in `0..9`) when the given cells are conflict-free: it returns the number
of Sudoku completions capped at 2, i.e. `min (numCompletions b) 2`. -/
theorem countSolutions_eq_min (b : Board) (hrange : InRange b)
    (hconf : NoConflicts b) :
    countSolutions b = min (numCompletions b) 2 := by
  have := countHelper_count 82 b 0 0 (by omega) (by omega)
    (filledBelow_zero b) hrange hconf (by omega)
  simpa [countSolutions] using this

/-- The reference grid is a solved board. -/
theorem classicGrid_solved : SolvedBoard classicGrid := by
  have core : ∀ r1 c1 r2 c2 : Nat, r1 < 9 → c1 < 9 → r2 < 9 → c2 < 9 →
      (r1 = r2 ∨ c1 = c2 ∨ (r1 / 3 = r2 / 3 ∧ c1 / 3 = c2 / 3)) →
      (r1 * 3 + r1 / 3 + c1) % 9 = (r2 * 3 + r2 / 3 + c2) % 9 →
      r1 = r2 ∧ c1 = c2 := by
    intro r1 c1 r2 c2 h1 h2 h3 h4 hs he
    interval_cases r1 <;> interval_cases r2 <;> omega
  constructor
  · intro p
    constructor
    · simp [classicGrid]
    · simp only [classicGrid]
      omega
  · rintro ⟨r1, c1⟩ ⟨r2, c2⟩ hne hsame hnz heq
    apply hne
    simp only [classicGrid] at heq
    have hs : r1.val = r2.val ∨ c1.val = c2.val ∨
        (r1.val / 3 = r2.val / 3 ∧ c1.val / 3 = c2.val / 3) := by
      rcases hsame with h | h | h
      · exact Or.inl (congrArg Fin.val h)
      · exact Or.inr (Or.inl (congrArg Fin.val h))
      · exact Or.inr (Or.inr h)
    obtain ⟨ha, hb⟩ := core r2.val c2.val r1.val c1.val r2.isLt c2.isLt
      r1.isLt c1.isLt (by omega) (by omega)
    simp only [Prod.mk.injEq]
    exact ⟨Fin.ext ha.symm, Fin.ext hb.symm⟩

/-!
Equations and refinement for the `solveSudoku` search (claim C6).
-/

/-- Unfolding equation for `solveHelper` at positive fuel, phrased
through `tryChain`. -/
theorem solveHelper_succ (b : Board) (fuel ℓ : Nat) :
    solveHelper b (fuel + 1) ℓ =
      if h : ℓ < 81 then
        if b (posOf ℓ h) ≠ 0 then solveHelper b fuel (ℓ + 1)
        else
          let s9 := tryChain (fun b2 => solveHelper b2 fuel (ℓ + 1))
            (posOf ℓ h) 9 (false, b)
          if s9.1 then s9 else (false, setCell s9.2 (posOf ℓ h) 0)
      else (true, b) := by
  simp only [solveHelper, tryChain]

/-- Branch equation: at a filled cell the solver just moves on. -/
theorem solveHelper_step_filled (b : Board) (fuel ℓ : Nat)
    (h : ℓ < 81) (hbp : b (posOf ℓ h) ≠ 0) :
    solveHelper b (fuel + 1) ℓ = solveHelper b fuel (ℓ + 1) := by
  rw [solveHelper_succ, dif_pos h, if_pos hbp]

/-- Branch equation: at an empty cell the solver runs the digit loop,
returning directly on success and resetting the cell on failure. -/
theorem solveHelper_step_empty (b : Board) (fuel ℓ : Nat)
    (h : ℓ < 81) (hbp : b (posOf ℓ h) = 0) :
    solveHelper b (fuel + 1) ℓ =
      if (tryChain (fun b2 => solveHelper b2 fuel (ℓ + 1))
          (posOf ℓ h) 9 (false, b)).1 then
        tryChain (fun b2 => solveHelper b2 fuel (ℓ + 1)) (posOf ℓ h) 9 (false, b)
      else
        (false, setCell (tryChain (fun b2 => solveHelper b2 fuel (ℓ + 1))
          (posOf ℓ h) 9 (false, b)).2 (posOf ℓ h) 0) := by
  rw [solveHelper_succ, dif_pos h, if_neg (by simp [hbp])]

/-- Branch equation: past the last cell the solver reports success. -/
theorem solveHelper_step_end (b : Board) (fuel ℓ : Nat) (h : ¬ ℓ < 81) :
    solveHelper b (fuel + 1) ℓ = (true, b) := by
  rw [solveHelper_succ, dif_neg h]

/-- Unfolding equation for `specSearch` on a non-empty order, phrased
through `tryChain`. -/
theorem specSearch_cons (p : Pos) (rest : List Pos) (b : Board) :
    specSearch (p :: rest) b =
      if b p ≠ 0 then specSearch rest b
      else
        if (tryChain (fun b2 => specSearch rest b2) p 9 (false, b)).1 then
          tryChain (fun b2 => specSearch rest b2) p 9 (false, b)
        else
          (false, setCell (tryChain (fun b2 => specSearch rest b2) p 9
            (false, b)).2 p 0) := by
  simp only [specSearch, tryChain]

/-- The digit loop only depends on the recursive search through its
values. -/
theorem tryChain_congr (r1 r2 : Board → Bool × Board) (p : Pos)
    (h : ∀ b2, r1 b2 = r2 b2) (k : Nat) (st : Bool × Board) :
    tryChain r1 p k st = tryChain r2 p k st := by
  induction k with
  | zero => rfl
  | succ k ih =>
    simp only [tryChain, ih, tryDigit]
    by_cases h1 : (tryChain r2 p k st).1
    · simp [h1]
    · simp only [h1, Bool.false_eq_true, if_false]
      by_cases h2 : isValid (tryChain r2 p k st).2 p.1 p.2 (k + 1)
      · simp [h2, h]
      · simp [h2]

theorem colMajorOrder_drop (ℓ : Nat) (h : ℓ < 81) :
    colMajorOrder.drop ℓ = posOf ℓ h :: colMajorOrder.drop (ℓ + 1) := by
  have hlen : ℓ < colMajorOrder.length := by
    simp [colMajorOrder]
    omega
  rw [List.drop_eq_getElem_cons hlen]
  congr 1
  simp [colMajorOrder, posOf]

theorem colMajorOrder_drop81 : colMajorOrder.drop 81 = [] := by
  apply List.drop_eq_nil_of_le
  simp [colMajorOrder]

/-- The fueled solver from cell index `ℓ` coincides with the spec-style
search over the remaining column-major visit order. -/
theorem solveHelper_eq_specSearch (fuel : Nat) :
    ∀ b ℓ, 82 - ℓ ≤ fuel → ℓ ≤ 81 →
      solveHelper b fuel ℓ = specSearch (colMajorOrder.drop ℓ) b := by
  induction fuel with
  | zero =>
    intro b ℓ hf hl
    exact absurd hf (by omega)
  | succ fuel ih =>
    intro b ℓ hf hl
    by_cases h81 : ℓ < 81
    · rw [colMajorOrder_drop ℓ h81, specSearch_cons]
      by_cases hbp : b (posOf ℓ h81) ≠ 0
      · rw [solveHelper_step_filled b fuel ℓ h81 hbp, if_pos hbp]
        exact ih b (ℓ + 1) (by omega) (by omega)
      · push_neg at hbp
        have hchain : tryChain (fun b2 => solveHelper b2 fuel (ℓ + 1))
            (posOf ℓ h81) 9 (false, b) =
            tryChain (fun b2 => specSearch (colMajorOrder.drop (ℓ + 1)) b2)
              (posOf ℓ h81) 9 (false, b) :=
          tryChain_congr _ _ _ (fun b2 => ih b2 (ℓ + 1) (by omega) (by omega)) 9 _
        rw [solveHelper_step_empty b fuel ℓ h81 hbp, hchain,
          if_neg (show ¬ b (posOf ℓ h81) ≠ 0 by simp [hbp])]
    · have hl81 : ℓ = 81 := by omega
      subst hl81
      rw [solveHelper_step_end b fuel 81 (by omega), colMajorOrder_drop81]
      rfl

/-- C6 (amended: the visit order is column-major, not row-major): the
backtracking search that completes the grid after diagonal seeding is
exactly the spec-style search — skip filled cells, try digits 1–9 in
ascending order at each empty cell, reset the cell to 0 on exhausting all
digits before unwinding — over the column-major visit order (top-to-bottom
within a column, columns left-to-right). -/
theorem C6_solveSudoku_colMajor (b : Board) :
    solveSudoku b = specSearch colMajorOrder b := by
  rw [solveSudoku, solveHelper_eq_specSearch 82 b 0 (by omega) (by omega),
    List.drop_zero]

/-- C6 counterexample: the search is not row-major — on `orderCexBoard`
the source's search and the row-major spec-style search return different
grids (they differ at cell `(0, 1)`). -/
theorem C6_rowMajor_cex :
    (solveSudoku orderCexBoard).2 ((0 : Fin 9), (1 : Fin 9)) = 3 ∧
    (specSearch rowMajorOrder orderCexBoard).2 ((0 : Fin 9), (1 : Fin 9)) = 1 ∧
    solveSudoku orderCexBoard ≠ specSearch rowMajorOrder orderCexBoard := by
  refine ⟨by decide, by decide, fun h => ?_⟩
  have h2 := congrArg (fun r => r.2 ((0 : Fin 9), (1 : Fin 9))) h
  simp only at h2
  rw [(by decide : (solveSudoku orderCexBoard).2 ((0 : Fin 9), (1 : Fin 9)) = 3),
    (by decide : (specSearch rowMajorOrder orderCexBoard).2
      ((0 : Fin 9), (1 : Fin 9)) = 1)] at h2
  exact absurd h2 (by omega)

/-!
Claim C7: what `countSolutions` returns.
-/

/-- On the all-ones grid, which is a legal Grid (entries in 0–9) with no
Sudoku completion, `countSolutions` returns 1: the helper skips every
filled cell and counts the full board without re-checking the given
cells. -/
theorem countSolutions_onesBoard : countSolutions onesBoard = 1 := by decide

/-- The all-ones grid has no Sudoku completion. -/
theorem numCompletions_onesBoard : numCompletions onesBoard = 0 := by
  rw [numCompletions, Finset.card_eq_zero]
  ext s
  simp only [Finset.mem_filter, Finset.mem_univ, true_and,
    Finset.not_mem_empty, iff_false, not_and]
  intro hext hok
  have h1 := hext ((0 : Fin 9), (0 : Fin 9)) (by simp [onesBoard])
  have h2 := hext ((0 : Fin 9), (1 : Fin 9)) (by simp [onesBoard])
  have heq : s ((0 : Fin 9), (0 : Fin 9)) = s ((0 : Fin 9), (1 : Fin 9)) := by
    apply Fin.ext
    simp only [onesBoard] at h1 h2
    omega
  exact hok ((0 : Fin 9), (0 : Fin 9)) ((0 : Fin 9), (1 : Fin 9))
    (by decide) (Or.inl rfl) heq

/-- C7 counterexample: on the all-ones grid (a legal Grid in the spec's
data model) `countSolutions` returns 1, yet the grid has 0 Sudoku
completions, so the result is not `min (number of completions) 2`. -/
theorem C7_countSolutions_cex :
    countSolutions onesBoard = 1 ∧ numCompletions onesBoard = 0 ∧
    countSolutions onesBoard ≠ min (numCompletions onesBoard) 2 := by
  refine ⟨countSolutions_onesBoard, numCompletions_onesBoard, ?_⟩
  rw [countSolutions_onesBoard, numCompletions_onesBoard]
  omega

/-- C7 (amended: the count statement holds for grids whose given cells
are conflict-free): for every grid with entries in 0–9 and no duplicated
digit among the filled cells of any row/column/box, `countSolutions`
returns exactly `min N 2` where `N` is the number of Sudoku completions
of the grid (0, 1, or 2-meaning-at-least-2); and for every grid and every
call state the helper returns the caller's board unchanged. -/
theorem C7_countSolutions_spec (b : Board) (hrange : InRange b)
    (hconf : NoConflicts b) :
    countSolutions b = min (numCompletions b) 2 ∧
    ∀ b2 : Board, ∀ fuel ℓ c : Nat, (countHelper b2 fuel ℓ c).2 = b2 :=
  ⟨countSolutions_eq_min b hrange hconf,
    fun b2 fuel ℓ c => countHelper_restores fuel b2 ℓ c⟩

/-- C7 witness: the amended theorem applied to the empty grid. -/
theorem C7_countSolutions_spec_witness :
    InRange emptyBoard ∧ NoConflicts emptyBoard ∧
    (countSolutions emptyBoard = min (numCompletions emptyBoard) 2 ∧
      ∀ b2 : Board, ∀ fuel ℓ c : Nat, (countHelper b2 fuel ℓ c).2 = b2) :=
  ⟨by decide, by decide, C7_countSolutions_spec emptyBoard (by decide) (by decide)⟩

/-!
Claim C2: the puzzle carver.
-/

/-- A grid that agrees with a solved board on its filled cells is
in range. -/
theorem subgrid_inRange (s g : Board) (hs : SolvedBoard s)
    (hagree : ∀ p : Pos, g p ≠ 0 → g p = s p) : InRange g := by
  intro p
  by_cases hp : g p = 0
  · omega
  · rw [hagree p hp]
    exact (hs.1 p).2

/-- A grid that agrees with a solved board on its filled cells is
conflict-free. -/
theorem subgrid_noConflicts (s g : Board) (hs : SolvedBoard s)
    (hagree : ∀ p : Pos, g p ≠ 0 → g p = s p) : NoConflicts g := by
  intro p q hpq hunit hp heq
  have hq : g q ≠ 0 := by rw [heq]; exact hp
  rw [hagree p hp] at heq hp
  rw [hagree q hq] at heq
  exact hs.2 p q hpq hunit hp heq

/-- The filling read off a solved board obeys the Sudoku constraints. -/
theorem boardFill_ok (s : Board) (hs : SolvedBoard s) :
    FillingOk (boardFill s) := by
  intro p q hpq hunit heq
  have h1 := boardFill_val s p (hs.1 p).1 (hs.1 p).2
  have h2 := boardFill_val s q (hs.1 q).1 (hs.1 q).2
  have hv := hs.2 p q hpq hunit (by have := (hs.1 p).1; omega)
  apply hv
  have := congrArg Fin.val heq
  omega

/-- A solved board completes any grid that agrees with it. -/
theorem boardFill_completes (s g : Board) (hs : SolvedBoard s)
    (hagree : ∀ p : Pos, g p ≠ 0 → g p = s p) :
    Completes (boardFill s) g := by
  intro p hp
  rw [hagree p hp, boardFill_val s p (hs.1 p).1 (hs.1 p).2]

/-- A grid with exactly one completion, one of whose completions is `σ0`,
has exactly `σ0` as completion. -/
theorem completions_eq_single (g : Board) (σ0 : Filling)
    (hN : numCompletions g = 1) (hc : Completes σ0 g) (hok : FillingOk σ0) :
    ∀ σ : Filling, (Completes σ g ∧ FillingOk σ) ↔ σ = σ0 := by
  obtain ⟨a, ha⟩ := Finset.card_eq_one.mp hN
  have hmem : σ0 ∈ (Finset.univ.filter fun σ : Filling =>
      Completes σ g ∧ FillingOk σ) := by
    simp only [Finset.mem_filter, Finset.mem_univ, true_and]
    exact ⟨hc, hok⟩
  rw [ha, Finset.mem_singleton] at hmem
  subst hmem
  intro σ
  constructor
  · intro hσ
    have : σ ∈ (Finset.univ.filter fun σ : Filling =>
        Completes σ g ∧ FillingOk σ) := by
      simp only [Finset.mem_filter, Finset.mem_univ, true_and]
      exact hσ
    rw [ha, Finset.mem_singleton] at this
    exact this
  · rintro rfl
    exact ⟨hc, hok⟩

/-- Zeroing a filled cell adds exactly one empty cell. -/
theorem zerosCount_setCell_zero (g : Board) (p : Pos) (h : g p ≠ 0) :
    zerosCount (setCell g p 0) = zerosCount g + 1 := by
  rw [zerosCount, zerosCount]
  have hset : (Finset.univ.filter fun q : Pos => setCell g p 0 q = 0) =
      insert p (Finset.univ.filter fun q : Pos => g q = 0) := by
    ext q
    simp only [Finset.mem_filter, Finset.mem_univ, true_and, Finset.mem_insert]
    by_cases hq : q = p
    · subst hq; simp [setCell]
    · simp [setCell_ne _ _ _ _ hq, hq]
  rw [hset, Finset.card_insert_of_not_mem (by simp [h])]

/-- A fully filled board has no empty cells. -/
theorem zerosCount_eq_zero (b : Board) (h : ∀ p : Pos, b p ≠ 0) :
    zerosCount b = 0 := by
  rw [zerosCount, Finset.card_eq_zero]
  ext q
  simp only [Finset.mem_filter, Finset.mem_univ, true_and,
    Finset.not_mem_empty, iff_false]
  exact h q

/-- The carving-loop invariant: the puzzle agrees with the solution on
filled cells, the uniqueness check holds, and the number of zeroed cells
plus the remaining removal budget is constant. -/
def CarveInv (s : Board) (n : Nat) (st : Board × Nat) : Prop :=
  (∀ p : Pos, st.1 p ≠ 0 → st.1 p = s p) ∧
  countSolutions st.1 = 1 ∧
  zerosCount st.1 + st.2 = n

/-- One carving iteration preserves the invariant. -/
theorem carveStep_inv (s : Board) (n : Nat) (st : Board × Nat) (pick : Pos)
    (h : CarveInv s n st) : CarveInv s n (carveStep st pick) := by
  obtain ⟨hagree, hcount, hz⟩ := h
  rw [carveStep]
  by_cases h0 : st.2 = 0
  · rw [if_pos h0]; exact ⟨hagree, hcount, hz⟩
  · rw [if_neg h0]
    by_cases hp : st.1 pick ≠ 0
    · rw [if_pos hp]
      by_cases hu : countSolutions (setCell st.1 pick 0) ≠ 1
      · rw [if_pos hu]
        have hrestore : setCell (setCell st.1 pick 0) pick (st.1 pick) = st.1 := by
          rw [setCell_setCell]
          exact setCell_self _ _ _ rfl
        simp only [hrestore]
        exact ⟨hagree, hcount, hz⟩
      · rw [if_neg hu]
        push_neg at hu
        refine ⟨?_, hu, ?_⟩
        · intro q hq
          have hq2 : setCell st.1 pick 0 q ≠ 0 := hq
          have hqp : q ≠ pick := by
            intro hc; subst hc; rw [setCell_same] at hq2; exact hq2 rfl
          show setCell st.1 pick 0 q = s q
          rw [setCell_ne _ _ _ _ hqp] at hq2 ⊢
          exact hagree q hq2
        · rw [zerosCount_setCell_zero st.1 pick hp]
          simp only []
          omega
    · rw [if_neg hp]
      exact ⟨hagree, hcount, hz⟩

/-- The carving loop preserves the invariant from any start state. -/
theorem carve_fold_inv (s : Board) (n : Nat) :
    ∀ picks : List Pos, ∀ st : Board × Nat, CarveInv s n st →
      CarveInv s n (picks.foldl carveStep st) := by
  intro picks
  induction picks with
  | nil => intro st h; exact h
  | cons pick rest ih =>
    intro st h
    exact ih (carveStep st pick) (carveStep_inv s n st pick h)

/-- The invariant holds at the start of carving a solved board. -/
theorem carve_init_inv (s : Board) (hs : SolvedBoard s) (n : Nat) :
    CarveInv s n (s, n) := by
  refine ⟨fun p _ => rfl, ?_, ?_⟩
  · rw [countSolutions_eq_min s (subgrid_inRange s s hs fun p _ => rfl)
      (subgrid_noConflicts s s hs fun p _ => rfl),
      numCompletions_of_full s (fun p => by have := (hs.1 p).1; omega)
        (subgrid_inRange s s hs fun p _ => rfl)
        (subgrid_noConflicts s s hs fun p _ => rfl)]
    omega
  · show zerosCount s + n = n
    rw [zerosCount_eq_zero s (fun p => by have := (hs.1 p).1; omega)]
    omega

/-- C2: carving a solved grid (the random cell draws modelled as the list
`picks`): every state reached after any number of iterations agrees with
the solution on its filled cells, passes the uniqueness check, has
exactly one Sudoku completion — the original solution — and satisfies
`zeroed cells + remaining budget = toRemove difficulty` (40 easy,
50 medium, 60 hard); hence whenever the loop finishes its budget, the
returned puzzle has exactly `toRemove difficulty` zeroed cells. -/
theorem C2_createPuzzle_spec (s : Board) (d : String) (picks : List Pos)
    (hs : SolvedBoard s) :
    (∀ i : Nat,
      (∀ p : Pos, (createPuzzle s d (picks.take i)).1 p ≠ 0 →
        (createPuzzle s d (picks.take i)).1 p = s p) ∧
      countSolutions (createPuzzle s d (picks.take i)).1 = 1 ∧
      numCompletions (createPuzzle s d (picks.take i)).1 = 1 ∧
      (∀ σ : Filling,
        (Completes σ (createPuzzle s d (picks.take i)).1 ∧ FillingOk σ) ↔
          σ = boardFill s) ∧
      zerosCount (createPuzzle s d (picks.take i)).1 +
        (createPuzzle s d (picks.take i)).2 = toRemove d) ∧
    ((createPuzzle s d picks).2 = 0 →
      zerosCount (createPuzzle s d picks).1 = toRemove d) := by
  have hinv : ∀ qs : List Pos, CarveInv s (toRemove d) (createPuzzle s d qs) :=
    fun qs => carve_fold_inv s (toRemove d) qs (s, toRemove d)
      (carve_init_inv s hs (toRemove d))
  have hfull : ∀ qs : List Pos,
      (∀ p : Pos, (createPuzzle s d qs).1 p ≠ 0 →
        (createPuzzle s d qs).1 p = s p) ∧
      countSolutions (createPuzzle s d qs).1 = 1 ∧
      numCompletions (createPuzzle s d qs).1 = 1 ∧
      (∀ σ : Filling,
        (Completes σ (createPuzzle s d qs).1 ∧ FillingOk σ) ↔
          σ = boardFill s) ∧
      zerosCount (createPuzzle s d qs).1 + (createPuzzle s d qs).2 =
        toRemove d := by
    intro qs
    obtain ⟨hagree, hcount, hz⟩ := hinv qs
    have hrange := subgrid_inRange s _ hs hagree
    have hconf := subgrid_noConflicts s _ hs hagree
    have hN : numCompletions (createPuzzle s d qs).1 = 1 := by
      have := countSolutions_eq_min _ hrange hconf
      omega
    exact ⟨hagree, hcount, hN,
      completions_eq_single _ _ hN (boardFill_completes s _ hs hagree)
        (boardFill_ok s hs), hz⟩
  refine ⟨fun i => hfull (picks.take i), fun hdone => ?_⟩
  have := (hfull picks).2.2.2.2
  omega

/-- C2 witness: the invariant theorem applied to the reference solved
grid at difficulty easy with no draws consumed yet. -/
theorem C2_createPuzzle_spec_witness :
    SolvedBoard classicGrid ∧
    ((∀ i : Nat,
      (∀ p : Pos, (createPuzzle classicGrid "easy" (List.take i [])).1 p ≠ 0 →
        (createPuzzle classicGrid "easy" (List.take i [])).1 p = classicGrid p) ∧
      countSolutions (createPuzzle classicGrid "easy" (List.take i [])).1 = 1 ∧
      numCompletions (createPuzzle classicGrid "easy" (List.take i [])).1 = 1 ∧
      (∀ σ : Filling,
        (Completes σ (createPuzzle classicGrid "easy" (List.take i [])).1 ∧
          FillingOk σ) ↔ σ = boardFill classicGrid) ∧
      zerosCount (createPuzzle classicGrid "easy" (List.take i [])).1 +
        (createPuzzle classicGrid "easy" (List.take i [])).2 =
          toRemove "easy") ∧
    ((createPuzzle classicGrid "easy" []).2 = 0 →
      zerosCount (createPuzzle classicGrid "easy" []).1 = toRemove "easy")) :=
  ⟨classicGrid_solved,
    C2_createPuzzle_spec classicGrid "easy" [] classicGrid_solved⟩

/-!
Session-model lemmas.
-/

/-- A completed (or failed) session accepts no further events: every
event leaves the state unchanged and emits nothing. -/
theorem completed_absorbs (st : GState) (e : GEvent)
    (h : st.gameCompleted = true) : stepE st e = (st, none) := by
  cases e with
  | cellClick p =>
    simp only [stepE, handleCellClick, h]
    rw [if_neg (by simp)]
  | keyDigit d => simp only [stepE, h]; rw [if_pos (by simp)]
  | keyErase => simp only [stepE, h]; rw [if_pos (by simp)]
  | keyArrow a => simp only [stepE, h]; rw [if_pos (by simp)]
  | padPress n =>
    simp only [stepE, handleNumberInput]
    cases st.selectedCell with
    | none => rfl
    | some p => simp [h]
  | hintClick =>
    simp only [stepE, provideHint]
    cases st.selectedCell with
    | none => rfl
    | some p => simp [h]
  | pauseClick =>
    simp only [stepE, togglePause]
    rw [if_pos (by simp [h])]
  | tick =>
    simp only [stepE, tickTimer]
    rw [if_neg (by simp [h])]

/-- `handleNumberInput` never changes `gameStarted`. -/
theorem handleNumberInput_gameStarted (st : GState) (num : Nat) :
    (handleNumberInput st num).1.gameStarted = st.gameStarted := by
  unfold handleNumberInput
  split
  · rfl
  · split
    · rfl
    · split
      · split
        · rfl
        · rfl
      · split
        · rfl
        · rfl

/-- No session event changes `gameStarted`. -/
theorem step_gameStarted (st : GState) (e : GEvent) :
    (step st e).gameStarted = st.gameStarted := by
  cases e with
  | cellClick p =>
    simp only [step, stepE, handleCellClick]
    split <;> rfl
  | keyDigit d =>
    simp only [step, stepE]
    split
    · rfl
    · split
      · exact handleNumberInput_gameStarted st _
      · rfl
  | keyErase =>
    simp only [step, stepE]
    split
    · rfl
    · split
      · exact handleNumberInput_gameStarted st _
      · rfl
  | keyArrow a =>
    simp only [step, stepE]
    split
    · rfl
    · split <;> rfl
  | padPress n => exact handleNumberInput_gameStarted st _
  | hintClick =>
    simp only [step, stepE, provideHint]
    split
    · rfl
    · split
      · rfl
      · split <;> rfl
  | pauseClick =>
    simp only [step, stepE, togglePause]
    split <;> rfl
  | tick =>
    simp only [step, stepE, tickTimer]
    split <;> rfl

/-- `handleNumberInput` preserves the digit-budget invariant while a game
has started: a committed write is followed by the recount effect, which
restores `usage[d] = 9 - count(d)` outright, and every rejecting branch
leaves board and usage untouched. -/
theorem handleNumberInput_usageInv (st : GState) (num : Nat)
    (hstart : st.gameStarted = true) (hinv : UsageInv st) :
    UsageInv (handleNumberInput st num).1 := by
  unfold handleNumberInput
  split
  · exact hinv
  · split
    · exact hinv
    · split
      · split
        · exact hinv
        · exact hinv
      · split
        · exact hinv
        · intro d
          simp only [hstart, recountUsage, if_true]
          split
          · omega
          · next hcond => exact absurd d.isLt (by omega)

/-- Every session event preserves the digit-budget invariant while a
game has started. -/
theorem step_usageInv (st : GState) (e : GEvent)
    (hstart : st.gameStarted = true) (hinv : UsageInv st) :
    UsageInv (step st e) := by
  cases e with
  | cellClick p =>
    simp only [step, stepE, handleCellClick]
    split
    · exact fun d => hinv d
    · exact hinv
  | keyDigit d =>
    simp only [step, stepE]
    split
    · exact hinv
    · split
      · exact handleNumberInput_usageInv st _ hstart hinv
      · exact hinv
  | keyErase =>
    simp only [step, stepE]
    split
    · exact hinv
    · split
      · exact handleNumberInput_usageInv st _ hstart hinv
      · exact hinv
  | keyArrow a =>
    simp only [step, stepE]
    split
    · exact hinv
    · split
      · exact fun d => hinv d
      · exact hinv
  | padPress n => exact handleNumberInput_usageInv st _ hstart hinv
  | hintClick =>
    simp only [step, stepE, provideHint]
    split
    · exact hinv
    · split
      · exact hinv
      · split
        · exact hinv
        · exact fun d => hinv d
  | pauseClick =>
    simp only [step, stepE, togglePause]
    split
    · exact hinv
    · exact fun d => hinv d
  | tick =>
    simp only [step, stepE, tickTimer]
    split
    · exact fun d => hinv d
    · exact hinv

/-- Event sequences preserve the digit-budget invariant while a game has
started. -/
theorem stepList_usageInv : ∀ evs : List GEvent, ∀ st : GState,
    st.gameStarted = true → UsageInv st →
    UsageInv (stepList st evs) ∧ (stepList st evs).gameStarted = true := by
  intro evs
  induction evs with
  | nil => intro st h1 h2; exact ⟨h2, h1⟩
  | cons e rest ih =>
    intro st h1 h2
    exact ih (step st e) (by rw [step_gameStarted]; exact h1)
      (step_usageInv st e h1 h2)

/-- C4: the digit-budget invariant `budget[d] + count_on_board(d) = 9`
(for every digit 1–9) holds in every state reachable during play: it is
established by starting a new game, preserved by every single event — in
particular by every committed placement and every erase — and therefore
holds along every event sequence. -/
theorem C4_digit_budget (st : GState) (hstart : st.gameStarted = true)
    (hinv : UsageInv st) :
    (∀ e : GEvent, UsageInv (step st e)) ∧
    (∀ evs : List GEvent, UsageInv (stepList st evs)) ∧
    (∀ prior : GState, ∀ solved puzzle : Board,
      UsageInv (newGameState prior solved puzzle)) := by
  refine ⟨fun e => step_usageInv st e hstart hinv,
    fun evs => (stepList_usageInv evs st hstart hinv).1, ?_⟩
  intro prior solved puzzle d
  simp only [newGameState, recountUsage]
  split
  · omega
  · next hcond => exact absurd d.isLt (by omega)

/-- C4 witness: the invariant theorem applied to the concrete play
state. -/
theorem C4_digit_budget_witness :
    playState.gameStarted = true ∧ UsageInv playState ∧
    ((∀ e : GEvent, UsageInv (step playState e)) ∧
     (∀ evs : List GEvent, UsageInv (stepList playState evs)) ∧
     (∀ prior : GState, ∀ solved puzzle : Board,
       UsageInv (newGameState prior solved puzzle))) :=
  ⟨rfl, by decide, C4_digit_budget playState rfl (by decide)⟩

/-- C5: with the session playing and an editable cell selected, entering
a non-zero digit different from the solution value leaves the board and
the digit budget unchanged and increments the wrong-attempt count by
exactly one; the session becomes failed (`gameCompleted` with the third
wrong attempt) exactly when the count reaches 3, and a completed/failed
session accepts no further moves: every event leaves it unchanged. -/
theorem C5_wrong_digit (st : GState) (p : Pos) (num : Nat)
    (hstart : st.gameStarted = true) (hncomp : st.gameCompleted = false)
    (hnpause : st.isPaused = false) (hsel : st.selectedCell = some p)
    (hedit : st.initialBoard p = 0) (hnum1 : 1 ≤ num) (hnum9 : num ≤ 9)
    (hwrong : num ≠ st.solution p) :
    (handleNumberInput st num).1.board = st.board ∧
    (handleNumberInput st num).1.numberUsage = st.numberUsage ∧
    (handleNumberInput st num).1.wrongAttempts = st.wrongAttempts + 1 ∧
    ((handleNumberInput st num).1.gameCompleted = true ↔
      3 ≤ st.wrongAttempts + 1) ∧
    (∀ st2 : GState, ∀ e : GEvent, st2.gameCompleted = true →
      stepE st2 e = (st2, none)) := by
  have hmain : handleNumberInput st num =
      (if 3 ≤ st.wrongAttempts + 1 then
        ({ st with wrongAttempts := st.wrongAttempts + 1,
                   gameCompleted := true }, none)
      else ({ st with wrongAttempts := st.wrongAttempts + 1 }, none)) := by
    simp only [handleNumberInput, hsel]
    rw [if_neg (by simp [hncomp, hnpause]), if_pos ⟨by omega, hwrong⟩]
  rw [hmain]
  by_cases h3 : 3 ≤ st.wrongAttempts + 1
  · rw [if_pos h3]
    exact ⟨rfl, rfl, rfl, by simp [h3],
      fun st2 e h2 => completed_absorbs st2 e h2⟩
  · rw [if_neg h3]
    exact ⟨rfl, rfl, rfl, by simp [hncomp, h3],
      fun st2 e h2 => completed_absorbs st2 e h2⟩

/-- C5 witness: the wrong-attempt theorem applied to the concrete play
state with the empty cell `(1, 0)` (solution digit 4) selected and the
digit 9 entered. -/
theorem C5_wrong_digit_witness :
    selState.gameStarted = true ∧ selState.gameCompleted = false ∧
    selState.isPaused = false ∧
    selState.selectedCell = some ((1 : Fin 9), (0 : Fin 9)) ∧
    selState.initialBoard ((1 : Fin 9), (0 : Fin 9)) = 0 ∧
    (9 : Nat) ≠ selState.solution ((1 : Fin 9), (0 : Fin 9)) ∧
    ((handleNumberInput selState 9).1.board = selState.board ∧
     (handleNumberInput selState 9).1.numberUsage = selState.numberUsage ∧
     (handleNumberInput selState 9).1.wrongAttempts =
       selState.wrongAttempts + 1 ∧
     ((handleNumberInput selState 9).1.gameCompleted = true ↔
       3 ≤ selState.wrongAttempts + 1) ∧
     (∀ st2 : GState, ∀ e : GEvent, st2.gameCompleted = true →
       stepE st2 e = (st2, none))) :=
  ⟨rfl, rfl, rfl, rfl, by decide, by decide,
    C5_wrong_digit selState ((1 : Fin 9), (0 : Fin 9)) 9 rfl rfl rfl rfl
      (by decide) (by omega) (by omega) (by decide)⟩

/-- C3: the code can modify a given cell.  In the concrete play session,
cell `(0, 0)` is a given (non-zero in the initial board), yet clicking
the editable cell `(1, 0)`, pressing ArrowUp (which moves the selection
onto the given cell without any editability check), and pressing
Backspace erases the given cell: the working board then holds 0 where the
puzzle holds 1. -/
theorem C3_given_cell_erased :
    playState.gameStarted = true ∧
    playState.initialBoard ((0 : Fin 9), (0 : Fin 9)) = 1 ∧
    playState.board ((0 : Fin 9), (0 : Fin 9)) = 1 ∧
    (stepList playState
      [GEvent.cellClick ((1 : Fin 9), (0 : Fin 9)),
       GEvent.keyArrow ArrowKey.up,
       GEvent.keyErase]).board ((0 : Fin 9), (0 : Fin 9)) = 0 ∧
    (stepList playState
      [GEvent.cellClick ((1 : Fin 9), (0 : Fin 9)),
       GEvent.keyArrow ArrowKey.up,
       GEvent.keyErase]).initialBoard ((0 : Fin 9), (0 : Fin 9)) = 1 :=
  ⟨rfl, by decide, by decide, by decide, by decide⟩

/-- C8: selection and input are not no-ops before a game has started.
On the fresh state (profile created, no game), clicking cell `(0, 0)`
selects it even though the session is not playing (`handleCellClick`
never checks `gameStarted`), and pressing 5 on the number pad is routed
to `handleNumberInput`, which counts a wrong attempt against the all-zero
solution. -/
theorem C8_pregame_not_noop :
    preState.gameStarted = false ∧ preState.selectedCell = none ∧
    preState.wrongAttempts = 0 ∧
    (step preState (GEvent.cellClick ((0 : Fin 9), (0 : Fin 9)))).selectedCell =
      some ((0 : Fin 9), (0 : Fin 9)) ∧
    (stepList preState
      [GEvent.cellClick ((0 : Fin 9), (0 : Fin 9)),
       GEvent.padPress (5 : Fin 10)]).wrongAttempts = 1 :=
  ⟨rfl, rfl, rfl, by decide, by decide⟩

/-- `handleNumberInput` changes the best-time store only by a completion
write of the current timer value. -/
theorem handleNumberInput_store (st : GState) (num : Nat) :
    (handleNumberInput st num).1.bestStore = st.bestStore ∨
    ∃ p : Pos, st.selectedCell = some p ∧
      isBoardComplete (setCell st.board p num) st.solution = true ∧
      (handleNumberInput st num).1.bestStore =
        saveBestTime st.bestStore st.playerName st.difficulty st.timer := by
  cases hsel : st.selectedCell with
  | none => left; simp [handleNumberInput, hsel]
  | some p =>
    by_cases hg : st.gameCompleted = true ∨ st.isPaused = true
    · left
      simp only [handleNumberInput, hsel]
      rw [if_pos hg]
    · by_cases hw : num ≠ 0 ∧ num ≠ st.solution p
      · left
        simp only [handleNumberInput, hsel]
        rw [if_neg hg, if_pos hw]
        split <;> rfl
      · by_cases hb : num ≠ 0 ∧ st.numberUsage num ≤ 0
        · left
          simp only [handleNumberInput, hsel]
          rw [if_neg hg, if_neg hw, if_pos hb]
        · simp only [handleNumberInput, hsel]
          rw [if_neg hg, if_neg hw, if_neg hb]
          by_cases hc : isBoardComplete (setCell st.board p num) st.solution = true
          · right
            exact ⟨p, rfl, hc, by simp [hc]⟩
          · left
            simp [hc]

/-- A session event changes the best-time store only by a completion
write of the current timer value. -/
theorem step_store (st : GState) (e : GEvent) :
    (step st e).bestStore = st.bestStore ∨
    ∃ p : Pos, ∃ num : Nat, st.selectedCell = some p ∧
      isBoardComplete (setCell st.board p num) st.solution = true ∧
      (step st e).bestStore =
        saveBestTime st.bestStore st.playerName st.difficulty st.timer := by
  have hlift : ∀ num : Nat,
      (handleNumberInput st num).1.bestStore = st.bestStore ∨
      ∃ p : Pos, ∃ num2 : Nat, st.selectedCell = some p ∧
        isBoardComplete (setCell st.board p num2) st.solution = true ∧
        (handleNumberInput st num).1.bestStore =
          saveBestTime st.bestStore st.playerName st.difficulty st.timer := by
    intro num
    rcases handleNumberInput_store st num with h | ⟨p, h1, h2, h3⟩
    · exact Or.inl h
    · exact Or.inr ⟨p, num, h1, h2, h3⟩
  cases e with
  | cellClick p =>
    left
    simp only [step, stepE, handleCellClick]
    split <;> rfl
  | keyDigit d =>
    simp only [step, stepE]
    split
    · left; rfl
    · split
      · exact hlift _
      · left; rfl
  | keyErase =>
    simp only [step, stepE]
    split
    · left; rfl
    · split
      · exact hlift _
      · left; rfl
  | keyArrow a =>
    left
    simp only [step, stepE]
    split
    · rfl
    · split <;> rfl
  | padPress n => exact hlift _
  | hintClick =>
    left
    simp only [step, stepE, provideHint]
    split
    · rfl
    · split
      · rfl
      · split <;> rfl
  | pauseClick =>
    left
    simp only [step, stepE, togglePause]
    split <;> rfl
  | tick =>
    left
    simp only [step, stepE, tickTimer]
    split <;> rfl

/-- C9: the best-time store is written only by a successful board
completion — every other event leaves it unchanged — and the write of
the session's elapsed time happens only when no record exists for the
`(playerName, difficulty)` pair or the new time is strictly smaller,
touching no other pair; with an existing equal-or-better record (or no
player name) the store is unchanged. -/
theorem C9_best_time :
    (∀ st : GState, ∀ e : GEvent,
      (step st e).bestStore = st.bestStore ∨
      ∃ p : Pos, ∃ num : Nat, st.selectedCell = some p ∧
        isBoardComplete (setCell st.board p num) st.solution = true ∧
        (step st e).bestStore =
          saveBestTime st.bestStore st.playerName st.difficulty st.timer) ∧
    (∀ store : BestStore, ∀ name diff : String, ∀ t : Nat,
      (name = "" → saveBestTime store name diff t = store) ∧
      (store (name, diff) = none → name ≠ "" →
        saveBestTime store name diff t (name, diff) = some t ∧
        ∀ k : String × String, k ≠ (name, diff) →
          saveBestTime store name diff t k = store k) ∧
      (∀ old : Nat, store (name, diff) = some old → t < old → name ≠ "" →
        saveBestTime store name diff t (name, diff) = some t ∧
        ∀ k : String × String, k ≠ (name, diff) →
          saveBestTime store name diff t k = store k) ∧
      (∀ old : Nat, store (name, diff) = some old → ¬ t < old →
        saveBestTime store name diff t = store)) := by
  refine ⟨step_store, ?_⟩
  intro store name diff t
  refine ⟨fun hname => by rw [saveBestTime, if_pos hname], ?_, ?_, ?_⟩
  · intro hlook hname
    have hred : saveBestTime store name diff t =
        fun k => if k = (name, diff) then some t else store k := by
      rw [saveBestTime, if_neg hname, hlook]
    simp only [hred]
    exact ⟨by simp, fun k hk => by rw [if_neg hk]⟩
  · intro old hlook ht hname
    have hred : saveBestTime store name diff t =
        fun k => if k = (name, diff) then some t else store k := by
      rw [saveBestTime, if_neg hname, hlook]
      exact if_pos ht
    simp only [hred]
    exact ⟨by simp, fun k hk => by rw [if_neg hk]⟩
  · intro old hlook ht
    by_cases hname : name = ""
    · rw [saveBestTime, if_pos hname]
    · rw [saveBestTime, if_neg hname, hlook]
      exact if_neg ht

/-- C9 witness: a tick event leaves the store unchanged, and the
saveBestTime conditions at a concrete store. -/
theorem C9_best_time_witness :
    ((step playState GEvent.tick).bestStore = playState.bestStore ∨
      ∃ p : Pos, ∃ num : Nat, playState.selectedCell = some p ∧
        isBoardComplete (setCell playState.board p num) playState.solution =
          true ∧
        (step playState GEvent.tick).bestStore =
          saveBestTime playState.bestStore playState.playerName
            playState.difficulty playState.timer) ∧
    ((fun _ => none : BestStore) ("geezy", "easy") = none → "geezy" ≠ "" →
      saveBestTime (fun _ => none) "geezy" "easy" 7 ("geezy", "easy") =
        some 7 ∧
      ∀ k : String × String, k ≠ ("geezy", "easy") →
        saveBestTime (fun _ => none) "geezy" "easy" 7 k =
          (fun _ => none : BestStore) k) :=
  ⟨(C9_best_time).1 playState GEvent.tick,
    ((C9_best_time).2 (fun _ => none) "geezy" "easy" 7).2.1⟩

/-- The `moveType` label is empty exactly when no shape was completed. -/
theorem moveLabelOf_empty_iff : ∀ a b c : Bool,
    (moveLabelOf a b c = "" ↔ a = false ∧ b = false ∧ c = false) := by
  decide

/-- Unfolding equation for `checkForSmartMove` on a non-zero digit. -/
theorem checkForSmartMove_eq (b2 : Board) (q : Pos) (num : Nat)
    (last : String) (hnum : ¬ num = 0) :
    checkForSmartMove b2 q num last =
      (if moveLabel b2 q ≠ "" ∧ moveLabel b2 q ≠ last then
        some (moveLabel b2 q) else none,
       if moveLabel b2 q ≠ "" ∧ moveLabel b2 q ≠ last then
        moveLabel b2 q else last) := by
  rw [checkForSmartMove, if_neg hnum]
  show (if moveLabel b2 q ≠ "" ∧ moveLabel b2 q ≠ last then
      (some (moveLabel b2 q), moveLabel b2 q) else (none, last)) = _
  by_cases hcond : moveLabel b2 q ≠ "" ∧ moveLabel b2 q ≠ last
  · rw [if_pos hcond, if_pos hcond, if_pos hcond]
  · rw [if_neg hcond, if_neg hcond, if_neg hcond]

/-- The `moveType` label determines which shapes were completed. -/
theorem moveLabelOf_inj : ∀ a1 b1 c1 a2 b2 c2 : Bool,
    moveLabelOf a1 b1 c1 = moveLabelOf a2 b2 c2 →
    a1 = a2 ∧ b1 = b2 ∧ c1 = c2 := by
  decide

/-- C10: after a committed non-zero placement, a smart-move signal is
emitted exactly when some row/column/box got completed (the label is
non-empty, and the empty label means no completed shape) and the label
differs from `lastSmartMove`, the label of the immediately preceding
emitted signal; the emitted label then replaces `lastSmartMove`,
otherwise `lastSmartMove` is kept, so the suppression depends only on
the most recent emission, not on the whole session; distinct
completed-shape sets always carry distinct labels. -/
theorem C10_smart_move (st : GState) (p : Pos) (num : Nat)
    (hncomp : st.gameCompleted = false) (hnpause : st.isPaused = false)
    (hsel : st.selectedCell = some p)
    (hnum1 : 1 ≤ num) (hnum9 : num ≤ 9) (hsol : num = st.solution p)
    (hbudget : 0 < st.numberUsage num) :
    ((handleNumberInput st num).2 =
      if moveLabel (setCell st.board p num) p ≠ "" ∧
          moveLabel (setCell st.board p num) p ≠ st.lastSmartMove then
        some (moveLabel (setCell st.board p num) p)
      else none) ∧
    ((handleNumberInput st num).1.lastSmartMove =
      if moveLabel (setCell st.board p num) p ≠ "" ∧
          moveLabel (setCell st.board p num) p ≠ st.lastSmartMove then
        moveLabel (setCell st.board p num) p
      else st.lastSmartMove) ∧
    (∀ b2 : Board, ∀ q : Pos, (moveLabel b2 q = "" ↔
      rowComplete b2 q.1 = false ∧ colComplete b2 q.2 = false ∧
        boxComplete b2 q = false)) ∧
    (∀ a1 b1 c1 a2 b2 c2 : Bool,
      moveLabelOf a1 b1 c1 = moveLabelOf a2 b2 c2 →
      a1 = a2 ∧ b1 = b2 ∧ c1 = c2) := by
  have hproj : (handleNumberInput st num).2 =
        (checkForSmartMove (setCell st.board p num) p num st.lastSmartMove).1 ∧
      (handleNumberInput st num).1.lastSmartMove =
        (checkForSmartMove (setCell st.board p num) p num st.lastSmartMove).2 := by
    simp only [handleNumberInput, hsel]
    rw [if_neg (by simp [hncomp, hnpause]), if_neg (fun h => h.2 hsol),
      if_neg (fun h => absurd h.2 (by omega))]
    exact ⟨rfl, rfl⟩
  rw [checkForSmartMove_eq (setCell st.board p num) p num st.lastSmartMove
    (by omega)] at hproj
  refine ⟨hproj.1, hproj.2, ?_, moveLabelOf_inj⟩
  intro b2 q
  exact moveLabelOf_empty_iff (rowComplete b2 q.1) (colComplete b2 q.2)
    (boxComplete b2 q)

/-!
Support for claim C1: conditional soundness of `generateSolvedBoard`.
If the backtracking search reports success, the returned grid is fully
solved and extends the diagonal seeding.  (The claim's unconditional form
also needs the mathematical fact that every diagonal seeding is
extendable, which is not formalised here.)
-/

/-- Invariant of the digit loop of `solveSudoku`: while no digit has
succeeded the board differs from the entry board at most at `p`, and a
success came from a valid digit whose recursive call succeeded. -/
theorem tryChain_solve_cases (fuel ℓ : Nat) (p : Pos) (b : Board)
    (hb : b p = 0)
    (hframe : ∀ b2 : Board, (solveHelper b2 fuel (ℓ + 1)).1 = false →
      (solveHelper b2 fuel (ℓ + 1)).2 = b2) :
    ∀ k, k ≤ 9 →
      ((tryChain (fun b2 => solveHelper b2 fuel (ℓ + 1)) p k (false, b)).1 = false →
        ((tryChain (fun b2 => solveHelper b2 fuel (ℓ + 1)) p k (false, b)).2 = b ∨
          ∃ j, 1 ≤ j ∧ j ≤ k ∧
            (tryChain (fun b2 => solveHelper b2 fuel (ℓ + 1)) p k (false, b)).2 =
              setCell b p j)) ∧
      ((tryChain (fun b2 => solveHelper b2 fuel (ℓ + 1)) p k (false, b)).1 = true →
        ∃ j, 1 ≤ j ∧ j ≤ k ∧ isValid b p.1 p.2 j = true ∧
          solveHelper (setCell b p j) fuel (ℓ + 1) =
            (true, (tryChain (fun b2 => solveHelper b2 fuel (ℓ + 1)) p k
              (false, b)).2)) := by
  intro k
  induction k with
  | zero =>
    intro _
    constructor
    · intro _; exact Or.inl rfl
    · intro h; exact absurd h (by simp [tryChain])
  | succ k ih =>
    intro hk9
    obtain ⟨ihf, iht⟩ := ih (by omega)
    set st := tryChain (fun b2 => solveHelper b2 fuel (ℓ + 1)) p k (false, b)
      with hst
    have hstep : tryChain (fun b2 => solveHelper b2 fuel (ℓ + 1)) p (k + 1)
        (false, b) = tryDigit (fun b2 => solveHelper b2 fuel (ℓ + 1)) p (k + 1) st :=
      rfl
    rw [hstep, tryDigit]
    by_cases h1 : st.1 = true
    · rw [if_pos h1]
      obtain ⟨j, hj1, hjk, hjv, hjs⟩ := iht h1
      constructor
      · intro hc; rw [h1] at hc; exact absurd hc (by simp)
      · intro _; exact ⟨j, hj1, by omega, hjv, hjs⟩
    · have h1f : st.1 = false := by revert h1; cases st.1 <;> simp
      rw [if_neg h1]
      have hshapes := ihf h1f
      have hvs : isValid st.2 p.1 p.2 (k + 1) = isValid b p.1 p.2 (k + 1) := by
        rcases hshapes with h | ⟨j, hj1, hjk, hjb⟩
        · rw [h]
        · rw [hjb]
          exact isValid_setCell_cell b p j (k + 1) hb (by omega) (by omega)
      by_cases hv : isValid st.2 p.1 p.2 (k + 1) = true
      · rw [if_pos hv]
        have hsetc : setCell st.2 p (k + 1) = setCell b p (k + 1) := by
          rcases hshapes with h | ⟨j, hj1, hjk, hjb⟩
          · rw [h]
          · rw [hjb, setCell_setCell]
        rw [hsetc]
        rw [hvs] at hv
        constructor
        · intro hfail
          exact Or.inr ⟨k + 1, by omega, le_rfl, hframe _ hfail⟩
        · intro hsucc
          refine ⟨k + 1, by omega, le_rfl, hv, ?_⟩
          rw [← hsucc]
      · rw [if_neg hv]
        constructor
        · intro _
          rcases hshapes with h | ⟨j, hj1, hjk, hjb⟩
          · exact Or.inl h
          · exact Or.inr ⟨j, hj1, by omega, hjb⟩
        · intro hc; rw [h1f] at hc; exact absurd hc (by simp)

/-- On failure the solver hands the board back exactly as received
(source line 293 resets the tried cell). -/
theorem solveHelper_fail_frame : ∀ fuel : Nat, ∀ b : Board, ∀ ℓ : Nat,
    (solveHelper b fuel ℓ).1 = false → (solveHelper b fuel ℓ).2 = b := by
  intro fuel
  induction fuel with
  | zero => intro b ℓ _; rfl
  | succ fuel ih =>
    intro b ℓ hfail
    by_cases h81 : ℓ < 81
    · by_cases hbp : b (posOf ℓ h81) ≠ 0
      · rw [solveHelper_step_filled b fuel ℓ h81 hbp] at hfail ⊢
        exact ih b (ℓ + 1) hfail
      · push_neg at hbp
        rw [solveHelper_step_empty b fuel ℓ h81 hbp] at hfail ⊢
        by_cases hs : (tryChain (fun b2 => solveHelper b2 fuel (ℓ + 1))
            (posOf ℓ h81) 9 (false, b)).1 = true
        · rw [if_pos hs] at hfail
          rw [hs] at hfail
          exact absurd hfail (by simp)
        · rw [if_neg hs] at hfail ⊢
          have hs2 : (tryChain (fun b2 => solveHelper b2 fuel (ℓ + 1))
              (posOf ℓ h81) 9 (false, b)).1 = false := by
            revert hs
            cases (tryChain (fun b2 => solveHelper b2 fuel (ℓ + 1))
              (posOf ℓ h81) 9 (false, b)).1 <;> simp
          have hcases := (tryChain_solve_cases fuel ℓ (posOf ℓ h81) b hbp
            (fun b2 => ih b2 (ℓ + 1)) 9 le_rfl).1 hs2
          show setCell _ (posOf ℓ h81) 0 = b
          funext q
          by_cases hq : q = posOf ℓ h81
          · subst hq
            rw [setCell_same]
            exact hbp.symm
          · rw [setCell_ne _ _ _ _ hq]
            rcases hcases with h | ⟨j, hj1, hj9, hjb⟩
            · rw [h]
            · rw [hjb, setCell_ne _ _ _ _ hq]
    · rw [solveHelper_step_end b fuel ℓ h81] at hfail
      exact absurd hfail (by simp)

/-- Conditional soundness of the solver: started on a conflict-free
in-range board with all earlier cells filled, a successful run returns a
fully solved board that extends the input board. -/
theorem solveHelper_sound : ∀ fuel : Nat, ∀ b : Board, ∀ ℓ : Nat,
    82 - ℓ ≤ fuel → ℓ ≤ 81 → FilledBelow b ℓ → InRange b → NoConflicts b →
    (solveHelper b fuel ℓ).1 = true →
    SolvedBoard (solveHelper b fuel ℓ).2 ∧
    (∀ q : Pos, b q ≠ 0 → (solveHelper b fuel ℓ).2 q = b q) := by
  intro fuel
  induction fuel with
  | zero =>
    intro b ℓ hf hl _ _ _ _
    exact absurd hf (by omega)
  | succ fuel ih =>
    intro b ℓ hf hl hfill hrange hconf hsucc
    by_cases h81 : ℓ < 81
    · by_cases hbp : b (posOf ℓ h81) ≠ 0
      · rw [solveHelper_step_filled b fuel ℓ h81 hbp] at hsucc ⊢
        apply ih b (ℓ + 1) (by omega) (by omega) ?_ hrange hconf hsucc
        intro m hm hml
        rcases Nat.lt_or_ge m ℓ with h | h
        · exact hfill m hm h
        · have hmeq : m = ℓ := by omega
          subst hmeq
          exact hbp
      · push_neg at hbp
        rw [solveHelper_step_empty b fuel ℓ h81 hbp] at hsucc ⊢
        by_cases hs : (tryChain (fun b2 => solveHelper b2 fuel (ℓ + 1))
            (posOf ℓ h81) 9 (false, b)).1 = true
        · rw [if_pos hs] at hsucc ⊢
          obtain ⟨j, hj1, hj9, hjv, hjs⟩ := (tryChain_solve_cases fuel ℓ
            (posOf ℓ h81) b hbp
            (fun b2 => solveHelper_fail_frame fuel b2 (ℓ + 1)) 9 le_rfl).2 hs
          have hfill2 : FilledBelow (setCell b (posOf ℓ h81) j) (ℓ + 1) := by
            intro m hm hml
            rcases Nat.lt_or_ge m ℓ with h | h
            · have hne : posOf m hm ≠ posOf ℓ h81 := by
                intro hcontra
                exact absurd (posOf_inj m ℓ hm h81 hcontra) (by omega)
              rw [setCell_ne _ _ _ _ hne]
              exact hfill m hm h
            · have hmeq : m = ℓ := by omega
              subst hmeq
              have hpm : posOf m hm = posOf m h81 := rfl
              rw [hpm, setCell_same]
              omega
          have hrange2 : InRange (setCell b (posOf ℓ h81) j) := by
            intro q
            by_cases hq : q = posOf ℓ h81
            · subst hq; rw [setCell_same]; omega
            · rw [setCell_ne _ _ _ _ hq]; exact hrange q
          have hconf2 : NoConflicts (setCell b (posOf ℓ h81) j) :=
            noConflicts_setCell b (posOf ℓ h81) j hconf hjv
          have hIH := ih (setCell b (posOf ℓ h81) j) (ℓ + 1) (by omega)
            (by omega) hfill2 hrange2 hconf2 (by rw [hjs])
          rw [hjs] at hIH
          refine ⟨hIH.1, ?_⟩
          intro q hq
          have hqp : q ≠ posOf ℓ h81 := by
            intro hc
            subst hc
            exact hq hbp
          have hstep := hIH.2 q (by rw [setCell_ne _ _ _ _ hqp]; exact hq)
          rw [setCell_ne _ _ _ _ hqp] at hstep
          exact hstep
        · rw [if_neg hs] at hsucc
          exact absurd hsucc (by simp)
    · rw [solveHelper_step_end b fuel ℓ h81] at hsucc ⊢
      have hl81 : ℓ = 81 := by omega
      subst hl81
      refine ⟨⟨fun p => ?_, hconf⟩, fun q _ => rfl⟩
      have hnz := filledBelow_all b hfill p
      have hr := hrange p
      show 1 ≤ b p ∧ b p ≤ 9
      omega

/-- The diagonal seeding keeps every cell in range. -/
theorem fillDiagonalBoxes_inRange (n0 n1 n2 : Fin 9 → Nat)
    (h0 : IsPerm9 n0) (h1 : IsPerm9 n1) (h2 : IsPerm9 n2) :
    InRange (fillDiagonalBoxes emptyBoard n0 n1 n2) := by
  intro q
  simp only [fillDiagonalBoxes, fillBox, emptyBoard]
  split_ifs with ha hb hc
  · exact (h2.2 _).2
  · exact (h1.2 _).2
  · exact (h0.2 _).2
  · omega

/-- The diagonal seeding is conflict-free: the three filled boxes share
no row, column or box, and within one box the nine shuffled digits are
pairwise distinct. -/
theorem fillDiagonalBoxes_noConflicts (n0 n1 n2 : Fin 9 → Nat)
    (h0 : IsPerm9 n0) (h1 : IsPerm9 n1) (h2 : IsPerm9 n2) :
    NoConflicts (fillDiagonalBoxes emptyBoard n0 n1 n2) := by
  intro p q hpq hunit hp heq
  have hu : p.1.val = q.1.val ∨ p.2.val = q.2.val ∨
      (p.1.val / 3 = q.1.val / 3 ∧ p.2.val / 3 = q.2.val / 3) := by
    rcases hunit with h | h | h
    · exact Or.inl (congrArg Fin.val h)
    · exact Or.inr (Or.inl (congrArg Fin.val h))
    · exact Or.inr (Or.inr h)
  have hne : p.1.val ≠ q.1.val ∨ p.2.val ≠ q.2.val := by
    by_contra hc
    push_neg at hc
    exact hpq (Prod.ext (Fin.ext hc.1) (Fin.ext hc.2))
  simp only [fillDiagonalBoxes, fillBox, emptyBoard] at hp heq
  split_ifs at hp heq with hA hB hC hD hE hF hG hH hI <;>
    first
      | exact hp rfl
      | omega
      | (first
          | (have hinj := h2.1 heq
             have hval := congrArg Fin.val hinj
             simp only [] at hval
             omega)
          | (have hinj := h1.1 heq
             have hval := congrArg Fin.val hinj
             simp only [] at hval
             omega)
          | (have hinj := h0.1 heq
             have hval := congrArg Fin.val hinj
             simp only [] at hval
             omega))

/-- Conditional form of claim C1: whenever the backtracking search
reports success on the seeded board, `generateSolvedBoard` returns a
fully solved grid extending the diagonal seeding.  The unconditional
claim additionally needs that every diagonal seeding is extendable. -/
theorem generateSolvedBoard_sound (n0 n1 n2 : Fin 9 → Nat)
    (h0 : IsPerm9 n0) (h1 : IsPerm9 n1) (h2 : IsPerm9 n2)
    (hsucc : (solveSudoku (fillDiagonalBoxes emptyBoard n0 n1 n2)).1 = true) :
    SolvedBoard (generateSolvedBoard n0 n1 n2) ∧
    ∀ q : Pos, fillDiagonalBoxes emptyBoard n0 n1 n2 q ≠ 0 →
      generateSolvedBoard n0 n1 n2 q =
        fillDiagonalBoxes emptyBoard n0 n1 n2 q :=
  solveHelper_sound 82 (fillDiagonalBoxes emptyBoard n0 n1 n2) 0 (by omega)
    (by omega) (filledBelow_zero _)
    (fillDiagonalBoxes_inRange n0 n1 n2 h0 h1 h2)
    (fillDiagonalBoxes_noConflicts n0 n1 n2 h0 h1 h2) hsucc

/-- C10 witness: the smart-move theorem applied to the play state with
the final empty cell selected and its solution digit 4 entered. -/
theorem C10_smart_move_witness :
    selState.gameCompleted = false ∧ selState.isPaused = false ∧
    selState.selectedCell = some ((1 : Fin 9), (0 : Fin 9)) ∧
    (4 : Nat) = selState.solution ((1 : Fin 9), (0 : Fin 9)) ∧
    (0 : Int) < selState.numberUsage 4 ∧
    (((handleNumberInput selState 4).2 =
      if moveLabel (setCell selState.board ((1 : Fin 9), (0 : Fin 9)) 4)
            ((1 : Fin 9), (0 : Fin 9)) ≠ "" ∧
          moveLabel (setCell selState.board ((1 : Fin 9), (0 : Fin 9)) 4)
            ((1 : Fin 9), (0 : Fin 9)) ≠ selState.lastSmartMove then
        some (moveLabel (setCell selState.board ((1 : Fin 9), (0 : Fin 9)) 4)
          ((1 : Fin 9), (0 : Fin 9)))
      else none) ∧
    ((handleNumberInput selState 4).1.lastSmartMove =
      if moveLabel (setCell selState.board ((1 : Fin 9), (0 : Fin 9)) 4)
            ((1 : Fin 9), (0 : Fin 9)) ≠ "" ∧
          moveLabel (setCell selState.board ((1 : Fin 9), (0 : Fin 9)) 4)
            ((1 : Fin 9), (0 : Fin 9)) ≠ selState.lastSmartMove then
        moveLabel (setCell selState.board ((1 : Fin 9), (0 : Fin 9)) 4)
          ((1 : Fin 9), (0 : Fin 9))
      else selState.lastSmartMove) ∧
    (∀ b2 : Board, ∀ q : Pos, (moveLabel b2 q = "" ↔
      rowComplete b2 q.1 = false ∧ colComplete b2 q.2 = false ∧
        boxComplete b2 q = false)) ∧
    (∀ a1 b1 c1 a2 b2 c2 : Bool,
      moveLabelOf a1 b1 c1 = moveLabelOf a2 b2 c2 →
      a1 = a2 ∧ b1 = b2 ∧ c1 = c2)) :=
  ⟨rfl, rfl, rfl, by decide, by decide,
    C10_smart_move selState ((1 : Fin 9), (0 : Fin 9)) 4 rfl rfl rfl
      (by omega) (by omega) (by decide) (by decide)⟩

end Geezy
